import Mathlib

/-!
Shallow embedding of the `pst` column-processing tool (Go) and proofs about it.

Conventions used throughout:
* Go `float64` values are modelled as `ℚ` (exact arithmetic); the algorithms
  under study are comparison-based plus a handful of exact-looking operations
  (`-v`, `0.5 * (a + b)`, Welford updates), so `ℚ` is the standard shallow model.
* Go `int` is modelled as `ℤ`; loop counters that start at 0 are `ℕ` and are
  cast to `ℤ` where the Go code compares them with `int` data.
* Go strings are modelled as `String`; the parsing mini-language works on
  `List Char` (`String.toList`) because every separator used by the code
  (`'|'`, `','`, `'-'`) is a single character.
* `container/heap` min-heaps of `float64` are modelled as ascending sorted
  lists: `Push` is `List.orderedInsert (· ≤ ·)`, the top `h[0]` is the head,
  and `Pop` removes the head.  A binary heap and a sorted list realise the
  same priority-queue behaviour on the multiset of stored values.
-/

namespace Pst

/-! ### String primitives (models of `strings.Split`, `strings.TrimSpace`, `strconv.Atoi`) -/

/-- Model of Go `strings.Split` for a single-character separator, on char lists.
Splitting never yields an empty list; splitting the empty string yields `[[]]`. -/
def splitOnCharAux (sep : Char) : List Char → List Char → List (List Char)
  | [], acc => [acc.reverse]
  | c :: cs, acc =>
    if c = sep then acc.reverse :: splitOnCharAux sep cs []
    else splitOnCharAux sep cs (c :: acc)

def splitOnChar (sep : Char) (s : List Char) : List (List Char) :=
  splitOnCharAux sep s []

/-- Core whitespace characters recognised by the model of `strings.TrimSpace` /
`unicode.IsSpace` (the ASCII part, which covers the inputs of interest). -/
def isSpaceChar (c : Char) : Bool :=
  c = ' ' || c = '\t' || c = '\n' || c = '\r' || c = '\x0b' || c = '\x0c'

/-- Model of Go `strings.TrimSpace` on char lists. -/
def goTrimSpace (s : List Char) : List Char :=
  ((s.dropWhile isSpaceChar).reverse.dropWhile isSpaceChar).reverse

def digitVal (c : Char) : Option ℕ :=
  if '0' ≤ c ∧ c ≤ '9' then some (c.toNat - '0'.toNat) else none

def digitsValAux : List Char → ℕ → Option ℕ
  | [], acc => some acc
  | c :: cs, acc =>
    match digitVal c with
    | some d => digitsValAux cs (acc * 10 + d)
    | none => none

/-- Model of Go `strconv.Atoi`: optional sign followed by a non-empty digit
string (overflow behaviour is not modelled; the specs at hand stay tiny). -/
def atoi : List Char → Option ℤ
  | [] => none
  | '+' :: rest => if rest = [] then none else (digitsValAux rest 0).map (fun n => (n : ℤ))
  | '-' :: rest => if rest = [] then none else (digitsValAux rest 0).map (fun n => -(n : ℤ))
  | s => (digitsValAux s 0).map (fun n => (n : ℤ))

/-! ### Row ranges (`rowRange`, `rowRangeSlice` from pst.go) -/

/-- `rowRange` from pst.go: a pair `(b, e)` of `int` row bounds. -/
structure rowRange where
  b : ℤ
  e : ℤ
deriving DecidableEq, Repr

/-- Go `math.MaxInt64` as used by `rowRangeSlice.maxEntry` for the empty slice. -/
def maxInt64 : ℤ := 9223372036854775807

/-- Scanning loop of `rowRangeSlice.contains` from pst.go. -/
def rrScan (v : ℤ) : List rowRange → Bool
  | [] => false
  | r :: rest => if v < r.b then false else if v ≤ r.e then true else rrScan v rest

/-- `rowRangeSlice.contains` from pst.go: the empty slice matches every index,
otherwise the sorted ranges are scanned linearly. -/
def rowRangeSlice.contains (rr : List rowRange) (v : ℤ) : Bool :=
  if rr = [] then true else rrScan v rr

/-- `rowRangeSlice.maxEntry` from pst.go: `math.MaxInt64` for the empty slice,
otherwise a fold starting from `0` taking the largest `e`. -/
def rowRangeSlice.maxEntry (rr : List rowRange) : ℤ :=
  if rr = [] then maxInt64
  else rr.foldl (fun mx r => if mx < r.e then r.e else mx) 0

/-! ### Range-spec parsing (`parseRange`, `makeIntRange`, input/output specs) -/

/-- `parseRange` from pst.go: `"a"` parses to `(a, a)`, `"a-b"` to `(a, b)`. -/
def parseRange (input : List Char) : Except String (ℤ × ℤ) :=
  match splitOnChar '-' input with
  | [x] =>
    match atoi x with
    | some b => .ok (b, b)
    | none => .error "could not convert into integer representation"
  | [x, y] =>
    match atoi x, atoi y with
    | some b, some e => .ok (b, e)
    | _, _ => .error "could not convert into integer representation"
  | _ => .error "incorrect column range specification"

/-- `makeIntRange` from pst.go: consecutive ints from `b` up to and including
`e` (empty when `e < b`). -/
def makeIntRange (b e : ℤ) : List ℤ :=
  (List.range (e + 1 - b).toNat).map (fun i => b + i)

/-- Token loop shared by `parseOutputSpec` (tokens used verbatim). -/
def parseOutputSpecAux : List (List Char) → Except String (List ℤ)
  | [] => .ok []
  | f :: rest =>
    match parseRange f with
    | .error e => .error e
    | .ok (b, e) => (parseOutputSpecAux rest).map (fun r => makeIntRange b e ++ r)

/-- `parseOutputSpec` from pst.go: split on `','`, expand each token. -/
def parseOutputSpec (input : String) : Except String (List ℤ) :=
  parseOutputSpecAux (splitOnChar ',' input.toList)

/-- `parseSpec.minMax` from pst.go, including its skewed initialisation
(`maxVal := -math.MaxInt64`, `minVal := math.MaxInt64`) and the
`if v > maxVal { } else if v < minVal { }` update.  Returns `(min, max)`. -/
def minMax (p : List ℤ) : ℤ × ℤ :=
  p.foldl
    (fun (mm : ℤ × ℤ) v =>
      if v > mm.2 then (mm.1, v) else if v < mm.1 then (v, mm.2) else mm)
    (maxInt64, -maxInt64)

/-- `getOutputSpec` from pst.go: empty spec passes through, otherwise parse and
reject when `max > numCols || min < 0`. -/
def getOutputSpec (output : String) (numCols : ℤ) : Except String (List ℤ) :=
  if output = "" then .ok []
  else
    match parseOutputSpec output with
    | .error e => .error e
    | .ok outCols =>
      if (minMax outCols).2 > numCols ∨ (minMax outCols).1 < 0 then
        .error "at least one output column specifier is out of bounds or negative"
      else .ok outCols

/-- Per-source token loop of `parseInputSpec` (tokens are `TrimSpace`d). -/
def parseSpecOfTokens : List (List Char) → Except String (List ℤ)
  | [] => .ok []
  | cr :: rest =>
    match parseRange (goTrimSpace cr) with
    | .error e => .error e
    | .ok (b, e) => (parseSpecOfTokens rest).map (fun r => makeIntRange b e ++ r)

/-- Per-file loop of `parseInputSpec`: split each file entry on `','`; a file
entry whose split has length 1 is rejected as "empty input specification". -/
def parseInputSpecGo : List (List Char) → Except String (List (List ℤ))
  | [] => .ok []
  | f :: rest =>
    if (splitOnChar ',' f).length = 1 then .error "empty input specification"
    else
      match parseSpecOfTokens (splitOnChar ',' f) with
      | .error e => .error e
      | .ok ps => (parseInputSpecGo rest).map (fun r => ps :: r)

/-- `parseInputSpec` from pst.go: empty input yields one empty `parseSpec`,
otherwise split on `'|'` and parse each file entry. -/
def parseInputSpec (input : String) : Except String (List (List ℤ)) :=
  if input = "" then .ok [[]]
  else parseInputSpecGo (splitOnChar '|' input.toList)

/-! ### Compute actions (`parseComputeSpec` from pst.go) -/

/-- Tags for the `computeAction` function values assigned by `parseComputeSpec`. -/
inductive CAction where
  | mean
  | variance
  | std
  | maxA
  | minA
  | median
deriving DecidableEq, Repr

def caOf (val : List Char) : Option CAction :=
  if val = "mean".toList then some .mean
  else if val = "var".toList then some .variance
  else if val = "std".toList then some .std
  else if val = "max".toList then some .maxA
  else if val = "min".toList then some .minA
  else if val = "median".toList then some .median
  else none

/-- Loop of `parseComputeSpec` from pst.go.  The first component records, in
order, every string written to standard output by the loop's
`fmt.Println(val)` call; the second is the parsed action list or the error. -/
def parseComputeSpecGo : List (List Char) → List String × Except String (List CAction)
  | [] => ([], .ok [])
  | r :: rest =>
    let val := goTrimSpace r
    match caOf val with
    | some a =>
      let p := parseComputeSpecGo rest
      (String.mk val :: p.1, p.2.map (fun as => a :: as))
    | none => ([String.mk val], .error "Encountered unknown compute action")

/-- `parseComputeSpec` from pst.go: split the comma-separated action list and
process each entry, printing each (trimmed) entry to stdout as it goes. -/
def parseComputeSpec (actions : String) : List String × Except String (List CAction) :=
  parseComputeSpecGo (splitOnChar ',' actions.toList)

/-! ### Variance (`variance` from stats.go) -/

/-- One step of the one-pass variance loop in `variance` (stats.go): state is
`(mk, qk, k)`; the Go body is `qk += (k-1) * (d-mk) * (d-mk) / k` followed by
`mk += (d-mk) / k`, so the new `qk` uses the old `mk`. -/
def varStep (s : ℚ × ℚ × ℚ) (d : ℚ) : ℚ × ℚ × ℚ :=
  (s.1 + (d - s.1) / s.2.2, s.2.1 + (s.2.2 - 1) * (d - s.1) * (d - s.1) / s.2.2, s.2.2 + 1)

/-- `variance` from stats.go: run the one-pass loop, then divide `qk` by
`n - 1` when `n > 1`, else return `0`. -/
def variance (items : List ℚ) : ℚ :=
  let s := items.foldl varStep (0, 0, 1)
  if 1 < items.length then s.2.1 / ((items.length : ℚ) - 1) else 0

/-- One step of the spec's wording of the recurrence: for the `k`-th element
(1-based) `qk += (k-1)/k * (x - mk)²`, then `mk += (x - mk)/k`. -/
def varStepSpec (s : ℚ × ℚ × ℚ) (d : ℚ) : ℚ × ℚ × ℚ :=
  (s.1 + (d - s.1) / s.2.2, s.2.1 + (s.2.2 - 1) / s.2.2 * (d - s.1) ^ 2, s.2.2 + 1)

/-- The variance exactly as the spec words it: the 1-based recurrence, with
final value `qk / (n-1)` for `n > 1` and `0` otherwise. -/
def varianceSpec (items : List ℚ) : ℚ :=
  let s := items.foldl varStepSpec (0, 0, 1)
  if 1 < items.length then s.2.1 / ((items.length : ℚ) - 1) else 0

/-! ### Running median (`medData`, `updateMedian`, `median` from stats.go)

The Go code keeps two `container/heap` min-heaps of `float64`:
`smaller` stores *negated* values (so its top is minus the largest value at or
below the median) and `larger` stores values at or above the median.  Here a
heap is an ascending sorted list: `heap.Push` is `hins`, `h[0]` is `headD 0`,
`heap.Pop` removes the head. -/

/-- `heap.Push` on the sorted-list model of a `FloatHeap`. -/
def hins (v : ℚ) (l : List ℚ) : List ℚ := List.orderedInsert (· ≤ ·) v l

/-- `medData` from stats.go. -/
structure medData where
  smaller : List ℚ
  larger : List ℚ
  val : ℚ
deriving DecidableEq, Repr

/-- `newMedData` from stats.go (heaps empty, `val` zero-valued). -/
def newMedData : medData := ⟨[], [], 0⟩

/-- Insertion phase of `updateMedian` from stats.go (everything before the
rebalancing step), translated branch by branch. -/
def medInsert (m : medData) (v : ℚ) : medData :=
  if m.smaller = [] ∧ m.larger = [] then
    { m with smaller := hins (-v) m.smaller }
  else if m.smaller = [] then
    if m.larger.headD 0 < v then
      { m with smaller := hins (-(m.larger.headD 0)) m.smaller,
               larger := hins v m.larger.tail }
    else { m with smaller := hins (-v) m.smaller }
  else if m.larger = [] then
    if v < -(m.smaller.headD 0) then
      { m with larger := hins (-(m.smaller.headD 0)) m.larger,
               smaller := hins (-v) m.smaller.tail }
    else { m with larger := hins v m.larger }
  else
    if v < m.val then { m with smaller := hins (-v) m.smaller }
    else if m.val < v then { m with larger := hins v m.larger }
    else if m.smaller.length ≤ m.larger.length then
      { m with smaller := hins (-v) m.smaller }
    else { m with larger := hins v m.larger }

/-- Rebalancing step of `updateMedian`: when the heaps differ in length by
exactly two, move one element from the longer heap to the shorter one. -/
def medRebalance (m : medData) : medData :=
  if m.smaller.length = m.larger.length + 2 then
    { m with smaller := m.smaller.tail,
             larger := hins (-(m.smaller.headD 0)) m.larger }
  else if m.larger.length = m.smaller.length + 2 then
    { m with larger := m.larger.tail,
             smaller := hins (-(m.larger.headD 0)) m.smaller }
  else m

/-- The "compute new median" step of `updateMedian`: equal sizes average the
two tops (`0.5 * (larger[0] - smaller[0])`), otherwise the longer heap's top
wins. -/
def medVal (m : medData) : ℚ :=
  if m.smaller.length = m.larger.length then
    (1 / 2) * (m.larger.headD 0 - m.smaller.headD 0)
  else if m.larger.length < m.smaller.length then -(m.smaller.headD 0)
  else m.larger.headD 0

/-- `updateMedian` from stats.go: insert, rebalance, recompute `val`. -/
def updateMedian (m : medData) (v : ℚ) : medData :=
  let m2 := medRebalance (medInsert m v)
  { m2 with val := medVal m2 }

/-- The fatal internal-consistency check at the end of `updateMedian`:
`math.Abs(float64(len(m.smaller)-len(m.larger))) > 1` triggers `log.Panic`. -/
def medPanic (m : medData) : Bool :=
  decide (1 < ((m.smaller.length : ℤ) - (m.larger.length : ℤ)).natAbs)

/-- `median` from stats.go: feed every value through `updateMedian` and read
off the final `val`. -/
def median (fs : List ℚ) : ℚ :=
  (fs.foldl updateMedian newMedData).val

/-- The spec-side median: sort the list; the middle element for odd length,
`0.5 * (a + b)` for the two middle elements `a`, `b` of an even length. -/
def medianOfSorted (xs : List ℚ) : ℚ :=
  let s := List.insertionSort (· ≤ ·) xs
  if s.length % 2 = 1 then s.getD (s.length / 2) 0
  else (1 / 2) * (s.getD (s.length / 2 - 1) 0 + s.getD (s.length / 2) 0)

/-! ### Per-source extraction (`fileParser` from pst.go)

The field splitter `strings.FieldsFunc(strings.TrimSpace(line), sepFun)` is an
external collaborator in the spec; it is abstracted as a parameter
`splitF : String → List String` applied to the raw line.  I/O (file opening
and `scanner.Err()`) is assumed error-free, matching the claims' scope; the
source is the list of its lines. -/

/-- The error value sent on `errCh` by `fileParser` when a requested column is
missing: it names the file and the offending column index. -/
structure colErr where
  fileName : String
  col : ℤ
deriving DecidableEq, Repr

/-- Scan loop of `fileParser` from pst.go.  `count` is the 0-based row counter
(Go starts it at `-1` and increments at the top of the loop; here it carries
the current line's index directly).  Returns the emitted rows in order and the
error, if any, sent on `errCh`.  `items[c]` is modelled as `getD c.toNat ""`;
the out-of-range access is unreachable because the code errors out first. -/
def fpGo (fileName : String) (colSpec : List ℤ) (rowRanges : List rowRange)
    (splitF : String → List String) (maxRow : ℤ) :
    List String → ℕ → List (List String) × Option colErr
  | [], _ => ([], none)
  | line :: rest, count =>
    if maxRow < (count : ℤ) then ([], none)
    else if ¬ rowRangeSlice.contains rowRanges (count : ℤ) then
      fpGo fileName colSpec rowRanges splitF maxRow rest (count + 1)
    else if colSpec = [] then
      let r := fpGo fileName colSpec rowRanges splitF maxRow rest (count + 1)
      ([line] :: r.1, r.2)
    else
      let items := splitF line
      match colSpec.find? (fun c => decide ((items.length : ℤ) ≤ c)) with
      | some c => ([], some ⟨fileName, c⟩)
      | none =>
        let r := fpGo fileName colSpec rowRanges splitF maxRow rest (count + 1)
        ((colSpec.map (fun c => items.getD c.toNat "")) :: r.1, r.2)

/-- `fileParser` from pst.go on an already-opened, error-free source given as
its list of lines. -/
def fileParser (fileName : String) (colSpec : List ℤ) (rowRanges : List rowRange)
    (splitF : String → List String) (lines : List String) :
    List (List String) × Option colErr :=
  fpGo fileName colSpec rowRanges splitF (rowRangeSlice.maxEntry rowRanges) lines 0

/-! Spec-shaped reference for `fileParser`: select the lines the row filter
admits, emit extractions until the first line with a missing column, and
report that line's first missing column. -/

/-- A line at 0-based index `i` is processed iff its index does not exceed
`maxEntry` and the row filter contains it. -/
def lineSelected (rowRanges : List rowRange) (maxRow : ℤ) (i : ℕ) : Bool :=
  decide ((i : ℤ) ≤ maxRow) && rowRangeSlice.contains rowRanges (i : ℤ)

/-- A processed line is bad iff it splits into fewer fields than `1 + c` for
some requested column `c`, i.e. some `c` is `≥` the number of fields. -/
def lineBad (colSpec : List ℤ) (splitF : String → List String) (line : String) : Bool :=
  colSpec.any (fun c => decide (((splitF line).length : ℤ) ≤ c))

/-- What a processed good line contributes: the whole raw line as a single
field when the column spec is empty, otherwise the requested fields in spec
order. -/
def extractLine (colSpec : List ℤ) (splitF : String → List String) (line : String) :
    List String :=
  if colSpec = [] then [line]
  else colSpec.map (fun c => (splitF line).getD c.toNat "")

/-- Spec-shaped `fileParser` on index-line pairs: filter by the row filter,
emit the good prefix, and error on the first bad selected line. -/
def fpSpecFrom (fileName : String) (colSpec : List ℤ) (rowRanges : List rowRange)
    (splitF : String → List String) (maxRow : ℤ) (plines : List (ℕ × String)) :
    List (List String) × Option colErr :=
  let sel := plines.filter (fun p => lineSelected rowRanges maxRow p.1)
  let rows := (sel.takeWhile (fun p => ! lineBad colSpec splitF p.2)).map
    (fun p => extractLine colSpec splitF p.2)
  let err :=
    match sel.dropWhile (fun p => ! lineBad colSpec splitF p.2) with
    | [] => none
    | p :: _ =>
      some ⟨fileName,
        (colSpec.find? (fun c => decide ((((splitF p.2).length : ℤ)) ≤ c))).getD 0⟩
  (rows, err)

/-- Spec-shaped `fileParser`. -/
def fpSpec (fileName : String) (colSpec : List ℤ) (rowRanges : List rowRange)
    (splitF : String → List String) (lines : List String) :
    List (List String) × Option colErr :=
  fpSpecFrom fileName colSpec rowRanges splitF (rowRangeSlice.maxEntry rowRanges)
    lines.enum

/-! ### Row-synchronized merge (`processData` from pst.go)

Error-free execution of `processData` is modelled deterministically: each data
channel is the list of rows its `fileParser` will send; once a source's list
is exhausted, every further receive yields `nil` (the closed-channel value).
The shared error channel never fires in the scenarios the claims quantify
over.  The Go loop over `dataChs` is the recursion `scanStep`; the `for row`
loop is `processDataGo`, with fuel standing in for the unbounded `for`. -/

/-- Per-channel state in `processData`: the rows not yet received, the cached
`defaultInRows[i]` entry, and the `deadChannels[i]` flag. -/
structure srcState where
  remaining : List (List String)
  dflt : List String
  dead : Bool
deriving DecidableEq, Repr

/-- The in-place overwrite `for _, c := range cols { inRow[in] = c; in++ }`
performed for rows ≥ 1.  Out-of-range writes are dropped (`List.set`), which
is unreachable when every source keeps a constant row width. -/
def writeAt (l : List String) (pos : ℕ) : List String → List String
  | [] => l
  | c :: cs => writeAt (l.set pos c) (pos + 1) cs

/-- One pass of `processData`'s inner `for i, ch := range dataChs` loop,
threading `activeChannels`, the write position `in`, and `inRow`.  `none`
models `return nil` when `activeChannels` reaches zero. -/
def scanStep (row : ℕ) :
    List srcState → ℕ → ℕ → List String →
    Option (List srcState × ℕ × ℕ × List String)
  | [], active, pos, inRow => some ([], active, pos, inRow)
  | s :: ss, active, pos, inRow =>
    match s.remaining with
    | cols :: rem =>
      if row = 0 then
        match scanStep row ss active pos (inRow ++ cols) with
        | none => none
        | some (ss', a, p, ir) =>
          some (⟨rem, List.replicate cols.length "", s.dead⟩ :: ss', a, p, ir)
      else
        match scanStep row ss active (pos + cols.length) (writeAt inRow pos cols) with
        | none => none
        | some (ss', a, p, ir) => some (⟨rem, s.dflt, s.dead⟩ :: ss', a, p, ir)
    | [] =>
      let active' := if s.dead then active else active - 1
      if active' = 0 then none
      else
        let cols := s.dflt
        if row = 0 then
          match scanStep row ss active' pos (inRow ++ cols) with
          | none => none
          | some (ss', a, p, ir) =>
            some (⟨[], List.replicate cols.length "", true⟩ :: ss', a, p, ir)
        else
          match scanStep row ss active' (pos + cols.length) (writeAt inRow pos cols) with
          | none => none
          | some (ss', a, p, ir) => some (⟨[], s.dflt, true⟩ :: ss', a, p, ir)

/-- The `for row := 0; ; row++` loop of `processData`.  Returns the sequence
of output rows handed to `printRow`; `none` means the fuel ran out before the
run returned. -/
def processDataGo (outCols : List ℤ) :
    ℕ → ℕ → List srcState → ℕ → List String → Option (List (List String))
  | 0, _, _, _, _ => none
  | fuel + 1, row, srcs, active, inRow =>
    match scanStep row srcs active 0 inRow with
    | none => some []
    | some (srcs', active', _, inRow') =>
      let outRow :=
        if outCols = [] then inRow'
        else outCols.map (fun c => inRow'.getD c.toNat "")
      match processDataGo outCols fuel (row + 1) srcs' active' inRow' with
      | none => none
      | some rest => some (outRow :: rest)

/-- `processData` from pst.go on per-source row lists: initially every channel
is live, `defaultInRows` entries are `nil`, and `activeChannels` counts all
sources. -/
def processData (rss : List (List (List String))) (outCols : List ℤ) (fuel : ℕ) :
    Option (List (List String)) :=
  processDataGo outCols fuel 0 (rss.map (fun rs => ⟨rs, [], false⟩)) rss.length []

/-! Spec-shaped reference for `processData`. -/

/-- Number of logical rows the merge emits: the largest source length. -/
def maxLen (rss : List (List (List String))) : ℕ :=
  rss.foldr (fun rs a => Nat.max rs.length a) 0

/-- A source's row width: the width of its first row (0 for an empty source). -/
def widthOf (rs : List (List String)) : ℕ := (rs.headD []).length

/-- What a source contributes to logical row `r`: its row `r` while alive, its
cached default of empty-string fields once exhausted. -/
def contribAt (rs : List (List String)) (r : ℕ) : List String :=
  rs.getD r (List.replicate (widthOf rs) "")

/-- Logical row `r` of the merge: each source contributes its row `r`, or its
cached default of empty-string fields once exhausted. -/
def paddedRow (rss : List (List (List String))) (r : ℕ) : List String :=
  (rss.map (fun rs => contribAt rs r)).flatten

/-- Total width of a merged row. -/
def totalWidth (rss : List (List (List String))) : ℕ :=
  (rss.map widthOf).sum

/-- Application of the output column spec to a merged row. -/
def applyOutCols (outCols : List ℤ) (row : List String) : List String :=
  if outCols = [] then row else outCols.map (fun c => row.getD c.toNat "")

/-- The spec-shaped output of the merge: one row per logical row index below
`maxLen`, never a partial row. -/
def mergedRows (rss : List (List (List String))) (outCols : List ℤ) :
    List (List String) :=
  (List.range (maxLen rss)).map (fun r => applyOutCols outCols (paddedRow rss r))

/-- Per-source state at the start of logical row `r`. -/
def srcAt (rs : List (List String)) (r : ℕ) : srcState :=
  if r = 0 then ⟨rs, [], false⟩
  else ⟨rs.drop r, List.replicate (widthOf rs) "", decide (rs.length < r)⟩

/-- `activeChannels` at the start of logical row `r`: sources not yet dead. -/
def activeAt (rss : List (List (List String))) (r : ℕ) : ℕ :=
  (rss.filter (fun rs => decide (r ≤ rs.length))).length

/-! ### Invariant of the running-median state -/

/-- Invariant maintained by `updateMedian`: both heap models are ascending
sorted lists, every (un-negated) element of `smaller` is at most every element
of `larger`, the lengths differ by at most one, and `val` is the value the
"compute new median" step assigns to the current heaps. -/
structure medInv (m : medData) : Prop where
  ssort : m.smaller.Sorted (· ≤ ·)
  lsort : m.larger.Sorted (· ≤ ·)
  part : ∀ x ∈ m.smaller, ∀ y ∈ m.larger, -x ≤ y
  sbal : m.smaller.length ≤ m.larger.length + 1
  lbal : m.larger.length ≤ m.smaller.length + 1
  vval : m.val = medVal m

/-- The multiset of values a `medData` holds, as a list: the un-negated
`smaller` elements followed by the `larger` elements. -/
def medContent (m : medData) : List ℚ :=
  m.smaller.map (fun x => -x) ++ m.larger

/-! ## Theorems -/

/-! ### C3: the one-pass variance recurrence -/

theorem varStep_eq_varStepSpec : varStep = varStepSpec := by
  funext s d
  unfold varStep varStepSpec
  simp only [Prod.mk.injEq]
  exact ⟨trivial, by ring, trivial⟩

/-- C3: `variance` computes exactly the spec's one-pass recurrence — for the
`k`-th element (1-based) `qk += (k-1)/k * (x - mk)²` then `mk += (x - mk)/k` —
and returns `qk / (n-1)` when `n > 1` and `0` when `n ≤ 1`. -/
theorem variance_eq_varianceSpec (items : List ℚ) : variance items = varianceSpec items := by
  unfold variance varianceSpec
  rw [varStep_eq_varStepSpec]

/-! ### C4: `rowRangeSlice.contains` -/

theorem rrScan_iff (v : ℤ) :
    ∀ rr : List rowRange, rr.Pairwise (fun r s => r.b ≤ s.b) →
      (rrScan v rr = true ↔ ∃ r ∈ rr, r.b ≤ v ∧ v ≤ r.e)
  | [], _ => by simp [rrScan]
  | r :: rest, h => by
    obtain ⟨h1, h2⟩ := List.pairwise_cons.mp h
    unfold rrScan
    by_cases hb : v < r.b
    · simp only [if_pos hb]
      constructor
      · intro h'; cases h'
      · rintro ⟨s, hs, hbs, _⟩
        rcases List.mem_cons.mp hs with rfl | hs
        · omega
        · have := h1 s hs; omega
    · simp only [if_neg hb]
      by_cases he : v ≤ r.e
      · simp only [if_pos he, true_iff]
        exact ⟨r, List.mem_cons_self r rest, by omega, he⟩
      · simp only [if_neg he]
        rw [rrScan_iff v rest h2]
        constructor
        · rintro ⟨s, hs, hss⟩; exact ⟨s, List.mem_cons_of_mem r hs, hss⟩
        · rintro ⟨s, hs, hbs, hes⟩
          rcases List.mem_cons.mp hs with rfl | hs
          · omega
          · exact ⟨s, hs, hbs, hes⟩

/-- C4: for the empty filter `contains` is always true; for a filter whose
ranges are sorted ascending by `b` (and well-formed, `b ≤ e`), `contains v`
holds iff `v` lies in some inclusive `(b, e)` interval. -/
theorem contains_iff (rr : List rowRange) (v : ℤ)
    (hsort : rr.Pairwise (fun r s => r.b ≤ s.b))
    (hbe : ∀ r ∈ rr, r.b ≤ r.e) :
    rowRangeSlice.contains rr v = true ↔ (rr = [] ∨ ∃ r ∈ rr, r.b ≤ v ∧ v ≤ r.e) := by
  unfold rowRangeSlice.contains
  by_cases hrr : rr = []
  · simp [hrr]
  · simp only [if_neg hrr, rrScan_iff v rr hsort]
    constructor
    · intro h; exact Or.inr h
    · rintro (rfl | h)
      · exact absurd rfl hrr
      · exact h

theorem contains_iff_witness :
    rowRangeSlice.contains [⟨2, 5⟩, ⟨11, 20⟩] 13 = true ↔
      ([⟨2, 5⟩, ⟨11, 20⟩] : List rowRange) = [] ∨
        ∃ r ∈ ([⟨2, 5⟩, ⟨11, 20⟩] : List rowRange), r.b ≤ 13 ∧ 13 ≤ r.e :=
  contains_iff _ _ (by decide) (by decide)

/-! ### C7: the output-spec bounds check is off by one -/

/-- C7 (code bug): with two extracted columns, the output spec `"2"` — an
index equal to `numCols`, hence outside `[0, numCols)` — is accepted by
`getOutputSpec` because the check reads `max > numCols` instead of
`max ≥ numCols`; the out-of-range index then reaches `inRow[c]` at run time. -/
theorem getOutputSpec_accepts_numCols :
    getOutputSpec "2" 2 = .ok [2] ∧ ¬ ((2 : ℤ) < 2) :=
  ⟨rfl, by decide⟩

/-! ### C8: single-token per-source specs are rejected -/

/-- C8 (code bug): the documented spec `"0,1|3"` (columns 0 and 1 from the
first file, column 3 from the rest) is rejected by `parseInputSpec`, because
the guard `len(colSpecs) == 1` treats every one-token per-source list as an
"empty input specification". -/
theorem parseInputSpec_rejects_single_token :
    parseInputSpec "0,1|3" = .error "empty input specification" := rfl

/-- The multi-token example from the unit tests does parse as documented. -/
theorem parseInputSpec_example :
    parseInputSpec "0,1-3,10|14,7,2|1,1-4" =
      .ok [[0, 1, 2, 3, 10], [14, 7, 2], [1, 1, 2, 3, 4]] := rfl

/-! ### C10: `parseComputeSpec` writes the action names to stdout -/

/-- C10 (code bug): in statistics mode the compute-spec parser itself writes
every action name to standard output (`fmt.Println(val)`), so the output
stream is not only the per-row formatted values: already for the spec
`"mean"` the line `"mean"` is printed before any row. -/
theorem parseComputeSpec_prints_action_names :
    parseComputeSpec "mean" = (["mean"], .ok [CAction.mean]) := rfl

/-! ### C2: heap balance of the running-median state -/

theorem hins_length (v : ℚ) (l : List ℚ) : (hins v l).length = l.length + 1 :=
  List.orderedInsert_length (r := (· ≤ ·)) l v

theorem medInsert_lengths (m : medData) (v : ℚ) :
    ((medInsert m v).smaller.length = m.smaller.length + 1 ∧
      (medInsert m v).larger.length = m.larger.length) ∨
    ((medInsert m v).smaller.length = m.smaller.length ∧
      (medInsert m v).larger.length = m.larger.length + 1) := by
  unfold medInsert
  split_ifs with h1 h2 h3 h4 h5 h6 h7 h8
  · left; exact ⟨hins_length _ _, rfl⟩
  · have hl : m.larger ≠ [] := fun h => h1 ⟨h2, h⟩
    have hlp := List.length_pos.mpr hl
    left
    refine ⟨hins_length _ _, ?_⟩
    simp only [hins_length, List.length_tail]
    omega
  · left; exact ⟨hins_length _ _, rfl⟩
  · have hsp := List.length_pos.mpr h2
    right
    refine ⟨?_, hins_length _ _⟩
    simp only [hins_length, List.length_tail]
    omega
  · right; exact ⟨rfl, hins_length _ _⟩
  · left; exact ⟨hins_length _ _, rfl⟩
  · right; exact ⟨rfl, hins_length _ _⟩
  · left; exact ⟨hins_length _ _, rfl⟩
  · right; exact ⟨rfl, hins_length _ _⟩

theorem medRebalance_bal (m : medData)
    (hs : m.smaller.length ≤ m.larger.length + 2)
    (hl : m.larger.length ≤ m.smaller.length + 2) :
    (medRebalance m).smaller.length ≤ (medRebalance m).larger.length + 1 ∧
    (medRebalance m).larger.length ≤ (medRebalance m).smaller.length + 1 := by
  unfold medRebalance
  split_ifs with hA hB
  · simp only [hins_length, List.length_tail]; omega
  · simp only [hins_length, List.length_tail]; omega
  · exact ⟨by omega, by omega⟩

theorem updateMedian_bal (m : medData) (v : ℚ)
    (hbs : m.smaller.length ≤ m.larger.length + 1)
    (hbl : m.larger.length ≤ m.smaller.length + 1) :
    (updateMedian m v).smaller.length ≤ (updateMedian m v).larger.length + 1 ∧
    (updateMedian m v).larger.length ≤ (updateMedian m v).smaller.length + 1 := by
  unfold updateMedian
  rcases medInsert_lengths m v with ⟨h1, h2⟩ | ⟨h1, h2⟩ <;>
    exact medRebalance_bal _ (by omega) (by omega)

theorem runMedian_bal (xs : List ℚ) :
    (xs.foldl updateMedian newMedData).smaller.length ≤
      (xs.foldl updateMedian newMedData).larger.length + 1 ∧
    (xs.foldl updateMedian newMedData).larger.length ≤
      (xs.foldl updateMedian newMedData).smaller.length + 1 := by
  induction xs using List.reverseRecOn with
  | nil => exact ⟨by simp [newMedData], by simp [newMedData]⟩
  | append_singleton zs w ih =>
    rw [List.foldl_append, List.foldl_cons, List.foldl_nil]
    exact updateMedian_bal _ w ih.1 ih.2

/-- C2: after every single `updateMedian` call on a state reachable by a
sequence of insertions from `newMedData`, the two heaps differ in length by at
most one, so the fatal `log.Panic` check in `updateMedian` never fires. -/
theorem updateMedian_no_panic (xs : List ℚ) (v : ℚ) :
    medPanic (updateMedian (xs.foldl updateMedian newMedData) v) = false ∧
    medPanic (xs.foldl updateMedian newMedData) = false := by
  obtain ⟨h1, h2⟩ := runMedian_bal xs
  obtain ⟨h3, h4⟩ := updateMedian_bal (xs.foldl updateMedian newMedData) v h1 h2
  constructor <;> · simp only [medPanic, decide_eq_false_iff_not]; omega

/-! ### C6 and C9: `fileParser` against its spec-shaped reference -/

theorem fpSpecFrom_nil (fileName : String) (colSpec : List ℤ) (rowRanges : List rowRange)
    (splitF : String → List String) (maxRow : ℤ) :
    fpSpecFrom fileName colSpec rowRanges splitF maxRow [] = ([], none) := rfl

theorem fpSpecFrom_of_filter_nil (fileName : String) (colSpec : List ℤ)
    (rowRanges : List rowRange) (splitF : String → List String) (maxRow : ℤ)
    (plines : List (ℕ × String))
    (h : plines.filter (fun p => lineSelected rowRanges maxRow p.1) = []) :
    fpSpecFrom fileName colSpec rowRanges splitF maxRow plines = ([], none) := by
  unfold fpSpecFrom
  rw [h]
  rfl

theorem fpSpecFrom_cons_unselected (fileName : String) (colSpec : List ℤ)
    (rowRanges : List rowRange) (splitF : String → List String) (maxRow : ℤ)
    (i : ℕ) (line : String) (plines : List (ℕ × String))
    (h : lineSelected rowRanges maxRow i = false) :
    fpSpecFrom fileName colSpec rowRanges splitF maxRow ((i, line) :: plines) =
      fpSpecFrom fileName colSpec rowRanges splitF maxRow plines := by
  unfold fpSpecFrom
  rw [List.filter_cons]
  simp [h]

theorem fpSpecFrom_cons_good (fileName : String) (colSpec : List ℤ)
    (rowRanges : List rowRange) (splitF : String → List String) (maxRow : ℤ)
    (i : ℕ) (line : String) (plines : List (ℕ × String))
    (hsel : lineSelected rowRanges maxRow i = true)
    (hgood : lineBad colSpec splitF line = false) :
    fpSpecFrom fileName colSpec rowRanges splitF maxRow ((i, line) :: plines) =
      (extractLine colSpec splitF line ::
        (fpSpecFrom fileName colSpec rowRanges splitF maxRow plines).1,
       (fpSpecFrom fileName colSpec rowRanges splitF maxRow plines).2) := by
  unfold fpSpecFrom
  rw [List.filter_cons]
  simp only [hsel, if_true]
  rw [List.takeWhile_cons, List.dropWhile_cons]
  simp [hgood]

theorem fpSpecFrom_cons_bad (fileName : String) (colSpec : List ℤ)
    (rowRanges : List rowRange) (splitF : String → List String) (maxRow : ℤ)
    (i : ℕ) (line : String) (plines : List (ℕ × String))
    (hsel : lineSelected rowRanges maxRow i = true)
    (hbad : lineBad colSpec splitF line = true) :
    fpSpecFrom fileName colSpec rowRanges splitF maxRow ((i, line) :: plines) =
      ([], some ⟨fileName,
        (colSpec.find? (fun c => decide (((splitF line).length : ℤ) ≤ c))).getD 0⟩) := by
  unfold fpSpecFrom
  rw [List.filter_cons]
  simp only [hsel, if_true]
  rw [List.takeWhile_cons, List.dropWhile_cons]
  simp [hbad]

theorem enumFrom_filter_selected_nil (rowRanges : List rowRange) (maxRow : ℤ) :
    ∀ (lines : List String) (n : ℕ), maxRow < (n : ℤ) →
      (List.enumFrom n lines).filter (fun p => lineSelected rowRanges maxRow p.1) = [] := by
  intro lines n hn
  apply List.filter_eq_nil_iff.mpr
  intro p hp
  have h1 : n ≤ p.1 := List.le_fst_of_mem_enumFrom hp
  simp only [lineSelected, Bool.and_eq_true, decide_eq_true_eq, not_and]
  intro hle
  exfalso
  have : (n : ℤ) ≤ (p.1 : ℤ) := by exact_mod_cast h1
  omega

theorem fpGo_eq_fpSpecFrom (fileName : String) (colSpec : List ℤ)
    (rowRanges : List rowRange) (splitF : String → List String) (maxRow : ℤ) :
    ∀ (lines : List String) (count : ℕ),
      fpGo fileName colSpec rowRanges splitF maxRow lines count =
        fpSpecFrom fileName colSpec rowRanges splitF maxRow (List.enumFrom count lines)
  | [], count => by simp [fpGo, fpSpecFrom_nil]
  | line :: rest, count => by
    have hcons : List.enumFrom count (line :: rest) =
        (count, line) :: List.enumFrom (count + 1) rest := rfl
    rw [hcons]
    unfold fpGo
    by_cases hmax : maxRow < (count : ℤ)
    · rw [if_pos hmax]
      rw [fpSpecFrom_of_filter_nil]
      have hsel : lineSelected rowRanges maxRow count = false := by
        simp only [lineSelected, Bool.and_eq_false_iff]
        left
        simpa using hmax
      rw [List.filter_cons]
      simp only [hsel, Bool.false_eq_true, if_false]
      exact enumFrom_filter_selected_nil rowRanges maxRow rest (count + 1) (by push_cast; omega)
    · rw [if_neg hmax]
      by_cases hcont : rowRangeSlice.contains rowRanges (count : ℤ)
      · rw [if_neg (by simp [hcont])]
        have hsel : lineSelected rowRanges maxRow count = true := by
          simp only [lineSelected, Bool.and_eq_true, decide_eq_true_eq]
          exact ⟨by omega, hcont⟩
        by_cases hcs : colSpec = []
        · rw [if_pos hcs]
          rw [fpSpecFrom_cons_good fileName colSpec rowRanges splitF maxRow count line _
            hsel (by simp [lineBad, hcs])]
          rw [fpGo_eq_fpSpecFrom fileName colSpec rowRanges splitF maxRow rest (count + 1)]
          simp [extractLine, hcs]
        · rw [if_neg hcs]
          rcases hfind : colSpec.find? (fun c => decide (((splitF line).length : ℤ) ≤ c)) with
            _ | c
          · have hgood : lineBad colSpec splitF line = false := by
              simp only [lineBad, Bool.eq_false_iff, ne_eq, List.any_eq_true, not_exists,
                not_and]
              intro c hc
              have := List.find?_eq_none.mp hfind c hc
              simpa using this
            rw [fpSpecFrom_cons_good fileName colSpec rowRanges splitF maxRow count line _
              hsel hgood]
            rw [fpGo_eq_fpSpecFrom fileName colSpec rowRanges splitF maxRow rest (count + 1)]
            simp only [hfind, extractLine, if_neg hcs]
          · have hbad : lineBad colSpec splitF line = true := by
              have hmem := List.mem_of_find?_eq_some hfind
              have hprop := List.find?_some hfind
              simp only [lineBad, List.any_eq_true]
              exact ⟨c, hmem, hprop⟩
            rw [fpSpecFrom_cons_bad fileName colSpec rowRanges splitF maxRow count line _
              hsel hbad]
            simp only [hfind, Option.getD_some]
      · rw [if_pos (by simp [hcont])]
        rw [fpSpecFrom_cons_unselected fileName colSpec rowRanges splitF maxRow count line _
          (by simp [lineSelected, hcont])]
        exact fpGo_eq_fpSpecFrom fileName colSpec rowRanges splitF maxRow rest (count + 1)

theorem fileParser_eq_fpSpec (fileName : String) (colSpec : List ℤ)
    (rowRanges : List rowRange) (splitF : String → List String) (lines : List String) :
    fileParser fileName colSpec rowRanges splitF lines =
      fpSpec fileName colSpec rowRanges splitF lines :=
  fpGo_eq_fpSpecFrom fileName colSpec rowRanges splitF _ lines 0

theorem dropWhile_head_false {α : Type*} (p : α → Bool) :
    ∀ (l : List α) (q : α) (qs : List α), l.dropWhile p = q :: qs → p q = false
  | [], q, qs, h => by simp at h
  | x :: xs, q, qs, h => by
    rw [List.dropWhile_cons] at h
    by_cases hx : p x = true
    · rw [if_pos hx] at h
      exact dropWhile_head_false p xs q qs h
    · rw [if_neg hx] at h
      have hxq : x = q := (List.cons.inj h).1
      subst hxq
      simpa using hx

theorem mem_of_dropWhile_eq_cons {α : Type*} (p : α → Bool) (l : List α) (q : α)
    (qs : List α) (h : l.dropWhile p = q :: qs) : q ∈ l := by
  have hsplit : l.takeWhile p ++ l.dropWhile p = l :=
    List.takeWhile_append_dropWhile (p := p) (l := l)
  rw [← hsplit, h]
  exact List.mem_append_right _ (List.mem_cons_self q qs)

/-- C6: `fileParser` coincides with the spec-shaped reference — it emits
extractions of the filter-selected lines up to (excluding) the first selected
line some requested column is out of range for, and errors exactly when such a
line exists, reporting the file name and the first offending column index;
in particular skipped lines never trigger the error, and an empty column spec
never errors. -/
theorem fileParser_characterization (fileName : String) (colSpec : List ℤ)
    (rowRanges : List rowRange) (splitF : String → List String) (lines : List String) :
    fileParser fileName colSpec rowRanges splitF lines =
      fpSpec fileName colSpec rowRanges splitF lines ∧
    ((fileParser fileName colSpec rowRanges splitF lines).2.isSome = true ↔
      ∃ p ∈ lines.enum,
        lineSelected rowRanges (rowRangeSlice.maxEntry rowRanges) p.1 = true ∧
        lineBad colSpec splitF p.2 = true) ∧
    (fileParser fileName [] rowRanges splitF lines).2 = none := by
  refine ⟨fileParser_eq_fpSpec fileName colSpec rowRanges splitF lines, ?_, ?_⟩
  · rw [fileParser_eq_fpSpec]
    rcases hdrop : List.dropWhile (fun p => ! lineBad colSpec splitF p.2)
        (lines.enum.filter
          (fun p => lineSelected rowRanges (rowRangeSlice.maxEntry rowRanges) p.1)) with
      _ | ⟨q, qs⟩
    · have h2 : (fpSpec fileName colSpec rowRanges splitF lines).2 = none := by
        simp [fpSpec, fpSpecFrom, hdrop]
      rw [h2]
      simp only [Option.isSome_none, Bool.false_eq_true, false_iff]
      rintro ⟨p, hp, hpsel, hpbad⟩
      have hall := List.dropWhile_eq_nil_iff.mp hdrop
      have hmem : p ∈ lines.enum.filter
          (fun p => lineSelected rowRanges (rowRangeSlice.maxEntry rowRanges) p.1) :=
        List.mem_filter.mpr ⟨hp, hpsel⟩
      have := hall p hmem
      simp [hpbad] at this
    · have h2 : (fpSpec fileName colSpec rowRanges splitF lines).2 =
          some ⟨fileName,
            (colSpec.find? (fun c => decide (((splitF q.2).length : ℤ) ≤ c))).getD 0⟩ := by
        simp [fpSpec, fpSpecFrom, hdrop]
      rw [h2]
      simp only [Option.isSome_some, true_iff]
      have hq : q ∈ List.dropWhile (fun p => ! lineBad colSpec splitF p.2)
          (lines.enum.filter
            (fun p => lineSelected rowRanges (rowRangeSlice.maxEntry rowRanges) p.1)) := by
        rw [hdrop]; exact List.mem_cons_self q qs
      have hqmem := mem_of_dropWhile_eq_cons _ _ _ _ hdrop
      have hqbad : lineBad colSpec splitF q.2 = true := by
        have := dropWhile_head_false _ _ _ _ hdrop
        simpa using this
      obtain ⟨hqin, hqsel⟩ := List.mem_filter.mp hqmem
      exact ⟨q, hqin, hqsel, hqbad⟩
  · rw [fileParser_eq_fpSpec]
    have hnil : List.dropWhile (fun p : ℕ × String => ! lineBad [] splitF p.2)
        (lines.enum.filter
          (fun p => lineSelected rowRanges (rowRangeSlice.maxEntry rowRanges) p.1)) = [] :=
      List.dropWhile_eq_nil_iff.mpr (fun x _ => rfl)
    simp [fpSpec, fpSpecFrom, hnil]

/-- C9 counterexample: with an empty column spec the line `" a "` is emitted
as the single field `" a "` — the raw line — whereas trimming its surrounding
whitespace would give `"a"`, a different string.  So the emitted field is not
the whitespace-trimmed line. -/
theorem fileParser_empty_colSpec_not_trimmed :
    (fileParser "f" [] [] (fun _ => []) [" a "]).1 = [[" a "]] ∧
    String.mk (goTrimSpace " a ".toList) = "a" ∧ (" a " : String) ≠ "a" :=
  ⟨rfl, rfl, by decide⟩

/-- C9 (amended): with an empty ColumnSpec, every filter-selected line is
emitted as a single-field vector containing the whole raw line exactly as read
(without trimming); the line is never split and no column-out-of-range error
can occur. -/
theorem fileParser_empty_colSpec (fileName : String) (rowRanges : List rowRange)
    (splitF : String → List String) (lines : List String) :
    fileParser fileName [] rowRanges splitF lines =
      ((lines.enum.filter
          (fun p => lineSelected rowRanges (rowRangeSlice.maxEntry rowRanges) p.1)).map
        (fun p => [p.2]), none) := by
  rw [fileParser_eq_fpSpec]
  have hnil : List.dropWhile (fun p : ℕ × String => ! lineBad [] splitF p.2)
      (lines.enum.filter
        (fun p => lineSelected rowRanges (rowRangeSlice.maxEntry rowRanges) p.1)) = [] :=
    List.dropWhile_eq_nil_iff.mpr (fun x _ => rfl)
  have hself : List.takeWhile (fun p : ℕ × String => ! lineBad [] splitF p.2)
      (lines.enum.filter
        (fun p => lineSelected rowRanges (rowRangeSlice.maxEntry rowRanges) p.1)) =
      lines.enum.filter
        (fun p => lineSelected rowRanges (rowRangeSlice.maxEntry rowRanges) p.1) :=
    List.takeWhile_eq_self_iff.mpr (fun x _ => rfl)
  simp [fpSpec, fpSpecFrom, hnil, hself, extractLine]

/-! ### C5: the row-synchronized merge pads short sources and ends cleanly -/

theorem writeAt_length (cols : List String) (l : List String) (pos : ℕ) :
    (writeAt l pos cols).length = l.length := by
  induction cols generalizing l pos with
  | nil => rfl
  | cons c cs ih => rw [writeAt, ih]; simp

theorem writeAt_spec (cols : List String) (l : List String) (pos : ℕ)
    (h : pos + cols.length ≤ l.length) :
    writeAt l pos cols = l.take pos ++ cols ++ l.drop (pos + cols.length) := by
  induction cols generalizing l pos with
  | nil => simp [writeAt]
  | cons c cs ih =>
    have hpos : pos < l.length := by simp at h; omega
    rw [writeAt]
    rw [ih (l.set pos c) (pos + 1) (by simp; simp at h; omega)]
    have hset : l.set pos c = l.take pos ++ c :: l.drop (pos + 1) :=
      List.set_eq_take_cons_drop c hpos
    rw [hset]
    have hlt : (l.take pos).length = pos := List.length_take_of_le (le_of_lt hpos)
    rw [List.take_append_eq_append_take, List.drop_append_eq_append_drop]
    rw [List.take_of_length_le (by omega), hlt]
    have h1 : pos + 1 - pos = 1 := by omega
    have h2 : pos + 1 + cs.length - pos = 1 + cs.length := by omega
    rw [h1, h2]
    simp only [List.take_succ_cons, List.take_zero, List.drop_of_length_le (by omega : (l.take pos).length ≤ pos + 1 + cs.length)]
    have h3 : (1 + cs.length) = cs.length + 1 := by omega
    rw [h3]
    simp only [List.drop_succ_cons, List.drop_drop]
    have h5 : pos + (c :: cs).length = pos + 1 + cs.length := by
      simp only [List.length_cons]; omega
    rw [h5]
    simp

theorem contribAt_length (rs : List (List String)) (r : ℕ)
    (hw : ∀ row ∈ rs, row.length = widthOf rs) :
    (contribAt rs r).length = widthOf rs := by
  unfold contribAt
  by_cases hr : r < rs.length
  · rw [List.getD_eq_getElem?_getD, List.getElem?_eq_getElem hr]
    exact hw _ (List.getElem_mem hr)
  · rw [List.getD_eq_getElem?_getD, List.getElem?_eq_none (by omega)]
    simp

theorem paddedRow_length (rss : List (List (List String))) (r : ℕ)
    (hw : ∀ rs ∈ rss, ∀ row ∈ rs, row.length = widthOf rs) :
    (paddedRow rss r).length = totalWidth rss := by
  unfold paddedRow totalWidth
  rw [List.length_flatten, List.map_map]
  congr 1
  apply List.map_congr_left
  intro rs hrs
  exact contribAt_length rs r (hw rs hrs)

theorem maxLen_cons (x : List (List String)) (xs : List (List (List String))) :
    maxLen (x :: xs) = Nat.max x.length (maxLen xs) := rfl

theorem length_le_maxLen (rss : List (List (List String))) :
    ∀ rs ∈ rss, rs.length ≤ maxLen rss := by
  induction rss with
  | nil => intro rs h; cases h
  | cons x xs ih =>
    intro rs hrs
    rw [maxLen_cons]
    rcases List.mem_cons.mp hrs with rfl | hrs
    · exact Nat.le_max_left _ _
    · exact le_trans (ih rs hrs) (Nat.le_max_right _ _)

theorem maxLen_attained (rss : List (List (List String))) (hne : rss ≠ []) :
    ∃ rs ∈ rss, rs.length = maxLen rss := by
  induction rss with
  | nil => exact absurd rfl hne
  | cons x xs ih =>
    by_cases hxs : xs = []
    · subst hxs
      exact ⟨x, List.mem_cons_self x [], by simp [maxLen]⟩
    · obtain ⟨rs, hrs, hlen⟩ := ih hxs
      rcases Nat.le_total x.length (maxLen xs) with h | h
      · refine ⟨rs, List.mem_cons_of_mem x hrs, ?_⟩
        rw [maxLen_cons, hlen]
        exact (Nat.max_eq_right h).symm
      · refine ⟨x, List.mem_cons_self x xs, ?_⟩
        rw [maxLen_cons]
        exact (Nat.max_eq_left h).symm

theorem activeAt_zero (rss : List (List (List String))) :
    activeAt rss 0 = rss.length := by
  unfold activeAt
  rw [List.filter_eq_self.mpr (by intro rs _; simp)]

theorem activeAt_cons_le (rs : List (List String)) (rest : List (List (List String)))
    (r : ℕ) (h : r ≤ rs.length) :
    activeAt (rs :: rest) r = activeAt rest r + 1 := by
  unfold activeAt
  rw [List.filter_cons, if_pos (by simpa using h)]
  simp

theorem activeAt_cons_gt (rs : List (List String)) (rest : List (List (List String)))
    (r : ℕ) (h : rs.length < r) :
    activeAt (rs :: rest) r = activeAt rest r := by
  unfold activeAt
  rw [List.filter_cons, if_neg (by simp; omega)]

theorem activeAt_mono (rss : List (List (List String))) (r : ℕ) :
    activeAt rss (r + 1) ≤ activeAt rss r := by
  induction rss with
  | nil => exact le_refl _
  | cons rs rest ih =>
    by_cases h1 : r + 1 ≤ rs.length
    · rw [activeAt_cons_le _ _ _ h1, activeAt_cons_le _ _ _ (by omega)]
      omega
    · rw [activeAt_cons_gt _ _ _ (by omega)]
      by_cases h2 : r ≤ rs.length
      · rw [activeAt_cons_le _ _ _ h2]; omega
      · rw [activeAt_cons_gt _ _ _ (by omega)]; exact ih

theorem activeAt_pos (rss : List (List (List String))) (r : ℕ) (hne : rss ≠ [])
    (hr : r ≤ maxLen rss) : activeAt rss r ≠ 0 := by
  obtain ⟨rs, hrs, hlen⟩ := maxLen_attained rss hne
  unfold activeAt
  intro h
  rw [List.length_eq_zero] at h
  have := List.filter_eq_nil_iff.mp h rs hrs
  simp at this
  omega

theorem srcAt_zero (rs : List (List String)) : srcAt rs 0 = ⟨rs, [], false⟩ := rfl

theorem srcAt_nil_one : srcAt ([] : List (List String)) 1 = ⟨[], [], true⟩ := rfl

theorem srcAt_cons_one (cols : List String) (rem : List (List String)) :
    srcAt (cols :: rem) 1 = ⟨rem, List.replicate cols.length "", false⟩ := by
  simp [srcAt, widthOf]

theorem contribAt_nil_zero : contribAt ([] : List (List String)) 0 = [] := rfl

theorem contribAt_cons_zero (cols : List String) (rem : List (List String)) :
    contribAt (cols :: rem) 0 = cols := rfl

theorem scanStep_nil (row active pos : ℕ) (inRow : List String) :
    scanStep row [] active pos inRow = some ([], active, pos, inRow) := rfl

theorem scanStep_zero_deliver (cols : List String) (rem : List (List String))
    (d : List String) (dd : Bool) (ss : List srcState) (active pos : ℕ)
    (inRow : List String) :
    scanStep 0 (⟨cols :: rem, d, dd⟩ :: ss) active pos inRow =
      match scanStep 0 ss active pos (inRow ++ cols) with
      | none => none
      | some (ss', a, p, ir) =>
        some (⟨rem, List.replicate cols.length "", dd⟩ :: ss', a, p, ir) := rfl

theorem scanStep_zero_closed (d : List String) (ss : List srcState)
    (active pos : ℕ) (inRow : List String) :
    scanStep 0 (⟨[], d, false⟩ :: ss) active pos inRow =
      (if active - 1 = 0 then none
       else
        match scanStep 0 ss (active - 1) pos (inRow ++ d) with
        | none => none
        | some (ss', a, p, ir) =>
          some (⟨[], List.replicate d.length "", true⟩ :: ss', a, p, ir)) := rfl

theorem scanStep_succ_deliver (r : ℕ) (cols : List String) (rem : List (List String))
    (d : List String) (dd : Bool) (ss : List srcState) (active pos : ℕ)
    (inRow : List String) :
    scanStep (r + 1) (⟨cols :: rem, d, dd⟩ :: ss) active pos inRow =
      match scanStep (r + 1) ss active (pos + cols.length) (writeAt inRow pos cols) with
      | none => none
      | some (ss', a, p, ir) => some (⟨rem, d, dd⟩ :: ss', a, p, ir) := rfl

theorem scanStep_succ_closed_live (r : ℕ) (d : List String) (ss : List srcState)
    (active pos : ℕ) (inRow : List String) :
    scanStep (r + 1) (⟨[], d, false⟩ :: ss) active pos inRow =
      (if active - 1 = 0 then none
       else
        match scanStep (r + 1) ss (active - 1) (pos + d.length) (writeAt inRow pos d) with
        | none => none
        | some (ss', a, p, ir) => some (⟨[], d, true⟩ :: ss', a, p, ir)) := rfl

theorem scanStep_succ_closed_dead (r : ℕ) (d : List String) (ss : List srcState)
    (active pos : ℕ) (inRow : List String) :
    scanStep (r + 1) (⟨[], d, true⟩ :: ss) active pos inRow =
      (if active = 0 then none
       else
        match scanStep (r + 1) ss active (pos + d.length) (writeAt inRow pos d) with
        | none => none
        | some (ss', a, p, ir) => some (⟨[], d, true⟩ :: ss', a, p, ir)) := rfl

theorem scan0_some (rssuf : List (List (List String))) :
    ∀ (a pos : ℕ) (inRow : List String), a + activeAt rssuf 1 ≠ 0 →
      scanStep 0 (rssuf.map (fun rs => srcAt rs 0)) (a + rssuf.length) pos inRow =
        some (rssuf.map (fun rs => srcAt rs 1), a + activeAt rssuf 1, pos,
          inRow ++ (rssuf.map (fun rs => contribAt rs 0)).flatten) := by
  induction rssuf with
  | nil =>
    intro a pos inRow ha
    simp [scanStep_nil, activeAt]
  | cons rs rest ih =>
    intro a pos inRow ha
    rcases rs with _ | ⟨cols, rem⟩
    · -- the source is empty: its channel closes immediately at row 0
      have hact : activeAt ([] :: rest) 1 = activeAt rest 1 :=
        activeAt_cons_gt _ _ _ (by simp)
      have hmono : activeAt rest 1 ≤ rest.length := by
        have h := activeAt_mono rest 0
        rw [activeAt_zero] at h
        simpa using h
      rw [hact] at ha ⊢
      rw [List.map_cons, srcAt_zero]
      rw [scanStep_zero_closed]
      have h0 : a + ([] :: rest).length - 1 = a + rest.length := by simp
      have hne0 : ¬ (a + rest.length = 0) := by omega
      rw [h0, if_neg hne0]
      rw [ih a pos (inRow ++ []) ha]
      simp [srcAt_nil_one, contribAt_nil_zero]
    · -- the source delivers its first row
      have hact : activeAt ((cols :: rem) :: rest) 1 = activeAt rest 1 + 1 :=
        activeAt_cons_le _ _ _ (by simp)
      rw [hact]
      rw [List.map_cons, srcAt_zero]
      rw [scanStep_zero_deliver]
      have hlen : a + ((cols :: rem) :: rest).length = (a + 1) + rest.length := by
        simp; omega
      rw [hlen]
      rw [ih (a + 1) pos (inRow ++ cols) (by omega)]
      have hcomb : a + 1 + activeAt rest 1 = a + (activeAt rest 1 + 1) := by omega
      simp [srcAt_cons_one, contribAt_cons_zero, hcomb]

theorem scan0_none (rssuf : List (List (List String))) :
    ∀ (pos : ℕ) (inRow : List String), rssuf ≠ [] → (∀ rs ∈ rssuf, rs = []) →
      scanStep 0 (rssuf.map (fun rs => srcAt rs 0)) rssuf.length pos inRow = none := by
  induction rssuf with
  | nil => intro pos inRow hne _; exact absurd rfl hne
  | cons rs rest ih =>
    intro pos inRow _ hall
    have hrs : rs = [] := hall rs (List.mem_cons_self rs rest)
    subst hrs
    rw [List.map_cons, srcAt_zero]
    rw [scanStep_zero_closed]
    have h0 : ([] :: rest : List (List (List String))).length - 1 = rest.length := by
      simp
    rw [h0]
    by_cases hrest : rest = []
    · subst hrest
      simp
    · rw [if_neg (by simpa [List.length_eq_zero] using hrest)]
      rw [ih pos (inRow ++ []) hrest (fun x hx => hall x (List.mem_cons_of_mem _ hx))]

theorem writeAt_take (cols l : List String) (pos : ℕ)
    (h : pos + cols.length ≤ l.length) :
    (writeAt l pos cols).take (pos + cols.length) = l.take pos ++ cols := by
  rw [writeAt_spec cols l pos h, List.take_append_eq_append_take]
  have hlen : (l.take pos ++ cols).length = pos + cols.length := by
    rw [List.length_append, List.length_take_of_le (by omega)]
  rw [List.take_of_length_le (by rw [hlen]), hlen]
  simp

theorem contribAt_of_lt (rs : List (List String)) (r : ℕ) (h : r < rs.length) :
    contribAt rs r = rs.get ⟨r, h⟩ := by
  unfold contribAt
  rw [List.getD_eq_getElem?_getD, List.getElem?_eq_getElem h]
  rfl

theorem contribAt_of_le (rs : List (List String)) (r : ℕ) (h : rs.length ≤ r) :
    contribAt rs r = List.replicate (widthOf rs) "" := by
  unfold contribAt
  rw [List.getD_eq_getElem?_getD, List.getElem?_eq_none (by omega)]
  rfl

theorem srcAt_succ (rs : List (List String)) (r : ℕ) :
    srcAt rs (r + 1) =
      ⟨rs.drop (r + 1), List.replicate (widthOf rs) "", decide (rs.length < r + 1)⟩ := rfl

theorem scanr_some (r : ℕ) (rssuf : List (List (List String))) :
    ∀ (a pos : ℕ) (inRow : List String),
      (∀ rs ∈ rssuf, ∀ row ∈ rs, row.length = widthOf rs) →
      inRow.length = pos + (rssuf.map widthOf).sum →
      a + activeAt rssuf (r + 2) ≠ 0 →
      scanStep (r + 1) (rssuf.map (fun rs => srcAt rs (r + 1)))
          (a + activeAt rssuf (r + 1)) pos inRow =
        some (rssuf.map (fun rs => srcAt rs (r + 2)), a + activeAt rssuf (r + 2),
          pos + (rssuf.map widthOf).sum,
          inRow.take pos ++ (rssuf.map (fun rs => contribAt rs (r + 1))).flatten) := by
  induction rssuf with
  | nil =>
    intro a pos inRow hw hlen ha
    simp only [List.map_nil, List.sum_nil, Nat.add_zero] at hlen
    rw [List.map_nil, scanStep_nil]
    simp only [activeAt, List.filter_nil, List.length_nil, List.map_nil, List.sum_nil,
      List.flatten_nil, List.append_nil, Nat.add_zero]
    rw [List.take_of_length_le (by omega)]
  | cons rs rest ih =>
    intro a pos inRow hw hlen ha
    have hwrs := hw rs (List.mem_cons_self rs rest)
    have hwrest : ∀ x ∈ rest, ∀ row ∈ x, row.length = widthOf x :=
      fun x hx => hw x (List.mem_cons_of_mem rs hx)
    have hsum : ((rs :: rest).map widthOf).sum = widthOf rs + (rest.map widthOf).sum := by
      simp
    by_cases hdel : r + 1 < rs.length
    · -- the source delivers its row r+1
      have hcols : rs.drop (r + 1) = rs.get ⟨r + 1, hdel⟩ :: rs.drop (r + 2) :=
        List.drop_eq_getElem_cons hdel
      have hclen : (rs.get ⟨r + 1, hdel⟩).length = widthOf rs :=
        hwrs _ (List.get_mem rs (r + 1) hdel)
      have hact1 : activeAt (rs :: rest) (r + 1) = activeAt rest (r + 1) + 1 :=
        activeAt_cons_le _ _ _ (by omega)
      have hact2 : activeAt (rs :: rest) (r + 2) = activeAt rest (r + 2) + 1 :=
        activeAt_cons_le _ _ _ (by omega)
      rw [List.map_cons, srcAt_succ, hcols, scanStep_succ_deliver]
      have hactarg : a + activeAt (rs :: rest) (r + 1) = (a + 1) + activeAt rest (r + 1) := by
        rw [hact1]; omega
      rw [hactarg, hclen]
      have hihlen : (writeAt inRow pos (rs.get ⟨r + 1, hdel⟩)).length =
          (pos + widthOf rs) + (rest.map widthOf).sum := by
        rw [writeAt_length, hlen, hsum]; omega
      rw [ih (a + 1) (pos + widthOf rs) _ hwrest hihlen (by rw [hact2] at ha; omega)]
      have htake : (writeAt inRow pos (rs.get ⟨r + 1, hdel⟩)).take (pos + widthOf rs) =
          inRow.take pos ++ rs.get ⟨r + 1, hdel⟩ := by
        have hx := writeAt_take (rs.get ⟨r + 1, hdel⟩) inRow pos
          (by rw [hclen, hlen, hsum]; omega)
        rw [hclen] at hx
        exact hx
      rw [htake]
      have hd1 : decide (rs.length < r + 1) = false := by simp; omega
      have hd2 : decide (rs.length < r + 2) = false := by simp; omega
      have ha2 : a + 1 + activeAt rest (r + 2) = a + activeAt (rs :: rest) (r + 2) := by
        rw [hact2]; omega
      have hp2 : pos + widthOf rs + (rest.map widthOf).sum =
          pos + ((rs :: rest).map widthOf).sum := by
        rw [hsum]; omega
      simp only [List.map_cons, srcAt_succ, hd1, hd2, ha2, hp2, List.flatten_cons,
        contribAt_of_lt rs (r + 1) hdel]
      simp
    · -- the source is exhausted: its slot is the cached default
      have hdropnil : rs.drop (r + 1) = [] := List.drop_eq_nil_of_le (by omega)
      have hdrop2 : rs.drop (r + 2) = [] := List.drop_eq_nil_of_le (by omega)
      have hact2e : activeAt (rs :: rest) (r + 2) = activeAt rest (r + 2) :=
        activeAt_cons_gt _ _ _ (by omega)
      have hmono2 : activeAt rest (r + 2) ≤ activeAt rest (r + 1) := activeAt_mono rest (r + 1)
      have hihlen : (writeAt inRow pos (List.replicate (widthOf rs) "")).length =
          (pos + widthOf rs) + (rest.map widthOf).sum := by
        rw [writeAt_length, hlen, hsum]; omega
      have htake : (writeAt inRow pos (List.replicate (widthOf rs) "")).take
            (pos + widthOf rs) =
          inRow.take pos ++ List.replicate (widthOf rs) "" := by
        have hx := writeAt_take (List.replicate (widthOf rs) "") inRow pos
          (by rw [List.length_replicate, hlen, hsum]; omega)
        rw [List.length_replicate] at hx
        exact hx
      have hd2 : decide (rs.length < r + 2) = true := by simp; omega
      have ha2 : a + activeAt rest (r + 2) = a + activeAt (rs :: rest) (r + 2) := by
        rw [hact2e]
      have hp2 : pos + widthOf rs + (rest.map widthOf).sum =
          pos + ((rs :: rest).map widthOf).sum := by
        rw [hsum]; omega
      rw [List.map_cons, srcAt_succ, hdropnil]
      by_cases hdead : rs.length < r + 1
      · -- already dead before this row
        have hd1 : decide (rs.length < r + 1) = true := by simp; omega
        have hact1 : activeAt (rs :: rest) (r + 1) = activeAt rest (r + 1) :=
          activeAt_cons_gt _ _ _ (by omega)
        rw [hd1, scanStep_succ_closed_dead, hact1]
        rw [if_neg (by rw [hact2e] at ha; omega)]
        have hwl : (List.replicate (widthOf rs) "").length = widthOf rs :=
          List.length_replicate ..
        rw [hwl]
        rw [ih a (pos + widthOf rs) _ hwrest hihlen (by rw [hact2e] at ha; omega)]
        rw [htake]
        simp only [List.map_cons, srcAt_succ, hdrop2, hd2, ha2, hp2, List.flatten_cons,
          contribAt_of_le rs (r + 1) (by omega)]
        simp
      · -- dies exactly at this row: first nil receive, counter decremented
        have hlen1 : rs.length = r + 1 := by omega
        have hd1 : decide (rs.length < r + 1) = false := by simp; omega
        have hact1 : activeAt (rs :: rest) (r + 1) = activeAt rest (r + 1) + 1 :=
          activeAt_cons_le _ _ _ (by omega)
        rw [hd1, scanStep_succ_closed_live, hact1]
        have hsub : a + (activeAt rest (r + 1) + 1) - 1 = a + activeAt rest (r + 1) := by
          omega
        rw [hsub]
        rw [if_neg (by rw [hact2e] at ha; omega)]
        have hwl : (List.replicate (widthOf rs) "").length = widthOf rs :=
          List.length_replicate ..
        rw [hwl]
        rw [ih a (pos + widthOf rs) _ hwrest hihlen (by rw [hact2e] at ha; omega)]
        rw [htake]
        simp only [List.map_cons, srcAt_succ, hdrop2, hd2, ha2, hp2, List.flatten_cons,
          contribAt_of_le rs (r + 1) (by omega)]
        simp

theorem scanr_none (r : ℕ) (rssuf : List (List (List String))) :
    ∀ (pos : ℕ) (inRow : List String),
      (∀ rs ∈ rssuf, rs.length ≤ r + 1) → activeAt rssuf (r + 1) ≠ 0 →
      scanStep (r + 1) (rssuf.map (fun rs => srcAt rs (r + 1)))
        (activeAt rssuf (r + 1)) pos inRow = none := by
  induction rssuf with
  | nil =>
    intro pos inRow _ ha
    exact absurd (by simp [activeAt]) ha
  | cons rs rest ih =>
    intro pos inRow hall ha
    have hrs : rs.length ≤ r + 1 := hall rs (List.mem_cons_self rs rest)
    have hrest : ∀ x ∈ rest, x.length ≤ r + 1 :=
      fun x hx => hall x (List.mem_cons_of_mem rs hx)
    have hdropnil : rs.drop (r + 1) = [] := List.drop_eq_nil_of_le (by omega)
    rw [List.map_cons, srcAt_succ, hdropnil]
    by_cases hdead : rs.length < r + 1
    · have hd1 : decide (rs.length < r + 1) = true := by simp; omega
      have hact1 : activeAt (rs :: rest) (r + 1) = activeAt rest (r + 1) :=
        activeAt_cons_gt _ _ _ (by omega)
      rw [hd1, scanStep_succ_closed_dead, hact1]
      rw [if_neg (by rw [hact1] at ha; omega)]
      rw [ih (pos + (List.replicate (widthOf rs) "").length) _ hrest
        (by rw [hact1] at ha; omega)]
    · have hd1 : decide (rs.length < r + 1) = false := by simp; omega
      have hact1 : activeAt (rs :: rest) (r + 1) = activeAt rest (r + 1) + 1 :=
        activeAt_cons_le _ _ _ (by omega)
      rw [hd1, scanStep_succ_closed_live, hact1]
      have hsub : activeAt rest (r + 1) + 1 - 1 = activeAt rest (r + 1) := by omega
      rw [hsub]
      by_cases hz : activeAt rest (r + 1) = 0
      · rw [if_pos hz]
      · rw [if_neg hz]
        rw [ih (pos + (List.replicate (widthOf rs) "").length) _ hrest hz]

theorem processDataGo_succ_none {outCols : List ℤ} {k row : ℕ} {srcs : List srcState}
    {active : ℕ} {inRow : List String}
    (h : scanStep row srcs active 0 inRow = none) :
    processDataGo outCols (k + 1) row srcs active inRow = some [] := by
  simp only [processDataGo, h]

theorem processDataGo_succ_some {outCols : List ℤ} {k row : ℕ} {srcs : List srcState}
    {active : ℕ} {inRow : List String} {srcs' : List srcState} {active' p' : ℕ}
    {inRow' : List String} {rest : List (List String)}
    (h : scanStep row srcs active 0 inRow = some (srcs', active', p', inRow'))
    (hrest : processDataGo outCols k (row + 1) srcs' active' inRow' = some rest) :
    processDataGo outCols (k + 1) row srcs active inRow =
      some (applyOutCols outCols inRow' :: rest) := by
  simp only [processDataGo, h, hrest, applyOutCols]

theorem processDataGo_run (rss : List (List (List String))) (outCols : List ℤ)
    (hne : rss ≠ [])
    (hw : ∀ rs ∈ rss, ∀ row ∈ rs, row.length = widthOf rs) :
    ∀ (k r : ℕ) (inRow : List String), r + k = maxLen rss + 1 → r ≤ maxLen rss →
      (r = 0 → inRow = []) → (1 ≤ r → inRow.length = totalWidth rss) →
      processDataGo outCols k r (rss.map (fun rs => srcAt rs r)) (activeAt rss r) inRow =
        some ((List.range' r (maxLen rss - r)).map
          (fun i => applyOutCols outCols (paddedRow rss i))) := by
  intro k
  induction k with
  | zero => intro r inRow hk hr _ _; omega
  | succ k ih =>
    intro r inRow hk hr h0 h1
    by_cases hend : r = maxLen rss
    · -- last iteration: every source is exhausted, the run returns nil at once
      have hnone : scanStep r (rss.map (fun rs => srcAt rs r)) (activeAt rss r) 0 inRow
          = none := by
        rcases r with _ | r'
        · have hall : ∀ rs ∈ rss, rs = [] := by
            intro rs hrs
            have hlen := length_le_maxLen rss rs hrs
            rw [← hend] at hlen
            exact List.length_eq_zero.mp (by omega)
          rw [activeAt_zero rss]
          exact scan0_none rss 0 inRow hne hall
        · apply scanr_none r' rss 0 inRow
          · intro rs hrs
            have := length_le_maxLen rss rs hrs
            omega
          · exact activeAt_pos rss (r' + 1) hne (by omega)
      rw [processDataGo_succ_none hnone]
      rw [hend, Nat.sub_self]
      rfl
    · have hrlt : r < maxLen rss := by omega
      rcases r with _ | r'
      · have hin : inRow = [] := h0 rfl
        subst hin
        have hscan := scan0_some rss 0 0 []
          (by have := activeAt_pos rss 1 hne (by omega); omega)
        simp only [Nat.zero_add, List.nil_append] at hscan
        rw [activeAt_zero rss]
        have hrest := ih 1 (paddedRow rss 0) (by omega) (by omega)
          (by intro h; exact absurd h (by omega))
          (fun _ => paddedRow_length rss 0 hw)
        rw [processDataGo_succ_some hscan hrest]
        have hrange : List.range' 0 (maxLen rss - 0) =
            0 :: List.range' 1 (maxLen rss - 1) := by
          have hx : maxLen rss - 0 = (maxLen rss - 1) + 1 := by omega
          rw [hx, List.range'_succ]
        rw [hrange]
        simp [paddedRow]
      · have hlenr : inRow.length = totalWidth rss := h1 (by omega)
        have hscan := scanr_some r' rss 0 0 inRow hw
          (by rw [hlenr]; simp [totalWidth])
          (by have := activeAt_pos rss (r' + 2) hne (by omega); omega)
        simp only [Nat.zero_add, List.take_zero, List.nil_append] at hscan
        have hrest := ih (r' + 2) (paddedRow rss (r' + 1)) (by omega) (by omega)
          (by intro h; exact absurd h (by omega))
          (fun _ => paddedRow_length rss (r' + 1) hw)
        rw [processDataGo_succ_some hscan hrest]
        have hrange : List.range' (r' + 1) (maxLen rss - (r' + 1)) =
            (r' + 1) :: List.range' (r' + 2) (maxLen rss - (r' + 2)) := by
          have hx : maxLen rss - (r' + 1) = (maxLen rss - (r' + 2)) + 1 := by omega
          rw [hx, List.range'_succ]
        rw [hrange]
        simp [paddedRow]

/-- C5: with per-source rows of uniform width, the merge over any sources —
unequal row counts included — ends successfully (returns nil): exactly
`maxLen` rows are emitted, each exhausted source's contribution is replaced by
its cached default of empty-string fields of that source's row width, and no
partially assembled row is ever emitted when the active-source counter reaches
zero. -/
theorem processData_uneven (rss : List (List (List String))) (outCols : List ℤ)
    (hne : rss ≠ [])
    (hw : ∀ rs ∈ rss, ∀ row ∈ rs, row.length = widthOf rs) :
    processData rss outCols (maxLen rss + 1) = some (mergedRows rss outCols) := by
  unfold processData mergedRows
  have h := processDataGo_run rss outCols hne hw (maxLen rss + 1) 0 [] (by omega)
    (by omega) (fun _ => rfl) (by intro h; exact absurd h (by omega))
  have hmap : rss.map (fun rs => srcAt rs 0) = rss.map (fun rs => (⟨rs, [], false⟩ : srcState)) := by
    apply List.map_congr_left
    intro rs _
    exact srcAt_zero rs
  rw [hmap, activeAt_zero] at h
  rw [h, Nat.sub_zero, List.range_eq_range' (maxLen rss)]

theorem processData_uneven_witness :
    processData [[["a", "b"], ["c", "d"]], [["x"]]] []
        (maxLen [[["a", "b"], ["c", "d"]], [["x"]]] + 1) =
      some (mergedRows [[["a", "b"], ["c", "d"]], [["x"]]] []) :=
  processData_uneven _ _ (by decide) (by decide)

/-! ### C1: the streaming two-heap median equals the sorted-list median -/

theorem hins_sorted {l : List ℚ} (v : ℚ) (h : l.Sorted (· ≤ ·)) :
    (hins v l).Sorted (· ≤ ·) :=
  List.Sorted.orderedInsert v l h

theorem hins_mem {x v : ℚ} {l : List ℚ} : x ∈ hins v l ↔ x = v ∨ x ∈ l :=
  List.mem_orderedInsert (· ≤ ·)

theorem hins_perm (v : ℚ) (l : List ℚ) : List.Perm (hins v l) (v :: l) :=
  List.perm_orderedInsert (· ≤ ·) v l

theorem sorted_head_le {x : ℚ} {xs : List ℚ} (h : (x :: xs).Sorted (· ≤ ·)) :
    ∀ y ∈ x :: xs, x ≤ y := by
  intro y hy
  rcases List.mem_cons.mp hy with rfl | hy
  · exact le_refl y
  · exact (List.sorted_cons.mp h).1 y hy

theorem headD_mem {l : List ℚ} (h : l ≠ []) (d : ℚ) : l.headD d ∈ l := by
  rcases l with _ | ⟨x, xs⟩
  · exact absurd rfl h
  · exact List.mem_cons_self x xs

theorem medVal_bounds (m : medData)
    (hs : m.smaller.Sorted (· ≤ ·)) (hl : m.larger.Sorted (· ≤ ·))
    (hp : ∀ x ∈ m.smaller, ∀ y ∈ m.larger, -x ≤ y)
    (hsne : m.smaller ≠ []) (hlne : m.larger ≠ []) :
    -(m.smaller.headD 0) ≤ medVal m ∧ medVal m ≤ m.larger.headD 0 := by
  have hkey : -(m.smaller.headD 0) ≤ m.larger.headD 0 :=
    hp _ (headD_mem hsne 0) _ (headD_mem hlne 0)
  unfold medVal
  split_ifs with h1 h2
  · constructor <;> linarith
  · exact ⟨le_refl _, hkey⟩
  · exact ⟨hkey, le_refl _⟩

/-- All the values at or below the median are at most `v`: pushing `-v` onto
`smaller` keeps the partition, provided `v` is below every `larger` element. -/
theorem part_push_smaller {s l : List ℚ} (v : ℚ)
    (hp : ∀ x ∈ s, ∀ y ∈ l, -x ≤ y) (hv : ∀ y ∈ l, v ≤ y) :
    ∀ x ∈ hins (-v) s, ∀ y ∈ l, -x ≤ y := by
  intro x hx y hy
  rcases hins_mem.mp hx with rfl | hx
  · simpa using hv y hy
  · exact hp x hx y hy

theorem part_push_larger {s l : List ℚ} (v : ℚ)
    (hp : ∀ x ∈ s, ∀ y ∈ l, -x ≤ y) (hv : ∀ x ∈ s, -x ≤ v) :
    ∀ x ∈ s, ∀ y ∈ hins v l, -x ≤ y := by
  intro x hx y hy
  rcases hins_mem.mp hy with rfl | hy
  · exact hv x hx
  · exact hp x hx y hy

theorem sorted_headD_le {l : List ℚ} (hne : l ≠ []) (h : l.Sorted (· ≤ ·)) :
    ∀ y ∈ l, l.headD 0 ≤ y := by
  rcases l with _ | ⟨x, xs⟩
  · exact absurd rfl hne
  · exact sorted_head_le h

theorem medContent_push_smaller (s l : List ℚ) (v : ℚ) :
    List.Perm ((hins (-v) s).map (fun x => -x) ++ l) (v :: (s.map (fun x => -x) ++ l)) := by
  have h1 : List.Perm ((hins (-v) s).map (fun x => -x)) (((-v) :: s).map (fun x => -x)) :=
    (hins_perm (-v) s).map _
  have h2 := h1.append_right l
  simpa using h2

theorem medContent_push_larger (s l : List ℚ) (v : ℚ) :
    List.Perm (s.map (fun x => -x) ++ hins v l) (v :: (s.map (fun x => -x) ++ l)) := by
  have h1 := (hins_perm v l).append_left (s.map (fun x => -x))
  exact h1.trans List.perm_middle

theorem medInsert_inv (m : medData) (v : ℚ)
    (hs : m.smaller.Sorted (· ≤ ·)) (hl : m.larger.Sorted (· ≤ ·))
    (hp : ∀ x ∈ m.smaller, ∀ y ∈ m.larger, -x ≤ y)
    (hv : m.val = medVal m) :
    (medInsert m v).smaller.Sorted (· ≤ ·) ∧
    (medInsert m v).larger.Sorted (· ≤ ·) ∧
    (∀ x ∈ (medInsert m v).smaller, ∀ y ∈ (medInsert m v).larger, -x ≤ y) ∧
    List.Perm (medContent (medInsert m v)) (v :: medContent m) := by
  obtain ⟨s, l, mval⟩ := m
  simp only [medData.smaller, medData.larger] at hs hl hp
  unfold medInsert
  simp only [medData.smaller, medData.larger, medData.val]
  split_ifs with h1 h2 h3 h4 h5 h6 h7 h8
  · -- both heaps empty
    obtain ⟨rfl, rfl⟩ := h1
    refine ⟨hins_sorted _ hs, hl, ?_, ?_⟩
    · intro x hx y hy
      cases hy
    · exact medContent_push_smaller [] [] v
  · -- smaller empty, v above larger's top: move the top to smaller, push v
    have hlne : l ≠ [] := fun hh => h1 ⟨h2, hh⟩
    subst h2
    obtain ⟨t, ts, rfl⟩ := List.exists_cons_of_ne_nil hlne
    simp only [List.headD_cons] at h3 ⊢
    refine ⟨hins_sorted _ List.sorted_nil, hins_sorted _ hl.of_cons, ?_, ?_⟩
    · intro x hx y hy
      rcases hins_mem.mp hx with rfl | hx
      · rcases hins_mem.mp hy with rfl | hy
        · simpa using le_of_lt h3
        · simpa using (List.sorted_cons.mp hl).1 y hy
      · cases hx
    · show List.Perm ((hins (-t) []).map (fun x => -x) ++ hins v ts)
        (v :: (([] : List ℚ).map (fun x => -x) ++ (t :: ts)))
      have hstep : (hins (-t) []).map (fun x => -x) = [t] := by
        simp [hins]
      rw [hstep]
      have h4 := (hins_perm v ts).append_left [t]
      refine h4.trans ?_
      simp only [List.nil_append, List.singleton_append]
      exact List.Perm.swap v t ts
  · -- smaller empty, v at most larger's top
    subst h2
    refine ⟨hins_sorted _ hs, hl, ?_, ?_⟩
    · refine part_push_smaller v hp ?_
      intro y hy
      have hlne : l ≠ [] := fun hh => h1 ⟨rfl, hh⟩
      have := sorted_headD_le hlne hl y hy
      have h3' := not_lt.mp h3
      linarith
    · exact medContent_push_smaller [] l v
  · -- larger empty, v below smaller's (un-negated) top: move it to larger
    have hsne : s ≠ [] := h2
    subst h4
    obtain ⟨u, us, rfl⟩ := List.exists_cons_of_ne_nil hsne
    simp only [List.headD_cons] at h5 ⊢
    refine ⟨hins_sorted _ hs.of_cons, hins_sorted _ List.sorted_nil, ?_, ?_⟩
    · intro x hx y hy
      rcases hins_mem.mp hy with rfl | hy
      · rcases hins_mem.mp hx with rfl | hx
        · simpa using le_of_lt h5
        · have := (List.sorted_cons.mp hs).1 x hx
          linarith
      · cases hy
    · have hstep : hins (-u) ([] : List ℚ) = [-u] := by simp [hins]
      rw [hstep]
      have hmap : List.Perm ((hins (-v) us).map (fun x => -x)) (v :: us.map (fun x => -x)) := by
        have := (hins_perm (-v) us).map (fun x => -x)
        simpa using this
      have happ := hmap.append_right [-u]
      refine happ.trans ?_
      show List.Perm ((v :: us.map (fun x => -x)) ++ [-u])
        (v :: ((u :: us).map (fun x => -x) ++ []))
      simp only [List.cons_append, List.map_cons, List.append_nil]
      refine List.Perm.cons v ?_
      exact List.perm_append_singleton _ _
  · -- larger empty, v at least smaller's (un-negated) top
    subst h4
    refine ⟨hs, hins_sorted _ hl, ?_, ?_⟩
    · refine part_push_larger v hp ?_
      intro x hx
      have hsne : s ≠ [] := h2
      obtain ⟨u, us, rfl⟩ := List.exists_cons_of_ne_nil hsne
      simp only [List.headD_cons] at h5
      have := sorted_head_le hs x hx
      linarith
    · exact medContent_push_larger s [] v
  · -- both nonempty, v below the current median
    have hb := medVal_bounds ⟨s, l, mval⟩ hs hl hp h2 h4
    refine ⟨hins_sorted _ hs, hl, ?_, ?_⟩
    · refine part_push_smaller v hp ?_
      intro y hy
      have hly := sorted_headD_le h4 hl y hy
      have := hb.2
      simp only [medData.smaller, medData.larger] at hly this ⊢
      rw [← hv] at this
      linarith [h6]
    · exact medContent_push_smaller s l v
  · -- both nonempty, v above the current median
    have hb := medVal_bounds ⟨s, l, mval⟩ hs hl hp h2 h4
    refine ⟨hs, hins_sorted _ hl, ?_, ?_⟩
    · refine part_push_larger v hp ?_
      intro x hx
      have hsx := sorted_headD_le h2 hs x hx
      have := hb.1
      simp only [medData.smaller, medData.larger] at this ⊢
      rw [← hv] at this
      linarith [h7]
    · exact medContent_push_larger s l v
  · -- tie, smaller not longer: push onto smaller
    have hb := medVal_bounds ⟨s, l, mval⟩ hs hl hp h2 h4
    have hveq : v = mval := by
      simp only [not_lt] at h6 h7
      linarith
    refine ⟨hins_sorted _ hs, hl, ?_, ?_⟩
    · refine part_push_smaller v hp ?_
      intro y hy
      have hly := sorted_headD_le h4 hl y hy
      have := hb.2
      rw [← hv] at this
      simp only [medData.larger] at hly
      linarith
    · exact medContent_push_smaller s l v
  · -- tie, smaller longer: push onto larger
    have hb := medVal_bounds ⟨s, l, mval⟩ hs hl hp h2 h4
    have hveq : v = mval := by
      simp only [not_lt] at h6 h7
      linarith
    refine ⟨hs, hins_sorted _ hl, ?_, ?_⟩
    · refine part_push_larger v hp ?_
      intro x hx
      have hsx := sorted_headD_le h2 hs x hx
      have := hb.1
      rw [← hv] at this
      simp only [medData.smaller] at hsx
      linarith
    · exact medContent_push_larger s l v

theorem medRebalance_inv (m : medData)
    (hs : m.smaller.Sorted (· ≤ ·)) (hl : m.larger.Sorted (· ≤ ·))
    (hp : ∀ x ∈ m.smaller, ∀ y ∈ m.larger, -x ≤ y) :
    (medRebalance m).smaller.Sorted (· ≤ ·) ∧
    (medRebalance m).larger.Sorted (· ≤ ·) ∧
    (∀ x ∈ (medRebalance m).smaller, ∀ y ∈ (medRebalance m).larger, -x ≤ y) ∧
    List.Perm (medContent (medRebalance m)) (medContent m) := by
  obtain ⟨s, l, mval⟩ := m
  simp only [medData.smaller, medData.larger] at hs hl hp
  unfold medRebalance
  simp only [medData.smaller, medData.larger]
  split_ifs with hA hB
  · -- smaller two longer: move its top (the largest value) into larger
    have hsne : s ≠ [] := by
      intro h
      rw [h] at hA
      simp only [List.length_nil] at hA
      omega
    obtain ⟨u, us, rfl⟩ := List.exists_cons_of_ne_nil hsne
    simp only [List.headD_cons, List.tail_cons]
    refine ⟨hs.of_cons, hins_sorted _ hl, ?_, ?_⟩
    · intro x hx y hy
      rcases hins_mem.mp hy with rfl | hy
      · have := (List.sorted_cons.mp hs).1 x hx
        linarith
      · exact hp x (List.mem_cons_of_mem u hx) y hy
    · show List.Perm (us.map (fun x => -x) ++ hins (-u) l)
        ((u :: us).map (fun x => -x) ++ l)
      have h1 := (hins_perm (-u) l).append_left (us.map (fun x => -x))
      refine h1.trans ?_
      refine List.perm_middle.trans ?_
      simp only [List.map_cons, List.cons_append]
      exact List.Perm.refl _
  · -- larger two longer: move its top (the smallest value) into smaller
    have hlne : l ≠ [] := by
      intro h
      rw [h] at hB
      simp only [List.length_nil] at hB
      omega
    obtain ⟨t, ts, rfl⟩ := List.exists_cons_of_ne_nil hlne
    simp only [List.headD_cons, List.tail_cons]
    refine ⟨hins_sorted _ hs, hl.of_cons, ?_, ?_⟩
    · intro x hx y hy
      rcases hins_mem.mp hx with rfl | hx
      · simpa using (List.sorted_cons.mp hl).1 y hy
      · exact hp x hx y (List.mem_cons_of_mem t hy)
    · show List.Perm ((hins (-t) s).map (fun x => -x) ++ ts)
        (s.map (fun x => -x) ++ (t :: ts))
      have hmap : List.Perm ((hins (-t) s).map (fun x => -x))
          (t :: s.map (fun x => -x)) := by
        have := (hins_perm (-t) s).map (fun x => -x)
        simpa using this
      have h1 := hmap.append_right ts
      refine h1.trans ?_
      exact List.perm_middle.symm
  · exact ⟨hs, hl, hp, List.Perm.refl _⟩

theorem updateMedian_inv (m : medData) (v : ℚ) (hm : medInv m) :
    medInv (updateMedian m v) ∧
    List.Perm (medContent (updateMedian m v)) (v :: medContent m) := by
  obtain ⟨h1s, h1l, h1p, h1c⟩ := medInsert_inv m v hm.ssort hm.lsort hm.part hm.vval
  obtain ⟨h2s, h2l, h2p, h2c⟩ := medRebalance_inv (medInsert m v) h1s h1l h1p
  have hbal := updateMedian_bal m v hm.sbal hm.lbal
  have hsm : (updateMedian m v).smaller = (medRebalance (medInsert m v)).smaller := rfl
  have hla : (updateMedian m v).larger = (medRebalance (medInsert m v)).larger := rfl
  have hco : medContent (updateMedian m v) = medContent (medRebalance (medInsert m v)) := rfl
  refine ⟨⟨?_, ?_, ?_, hbal.1, hbal.2, ?_⟩, ?_⟩
  · rw [hsm]; exact h2s
  · rw [hla]; exact h2l
  · rw [hsm, hla]; exact h2p
  · show medVal (medRebalance (medInsert m v)) = medVal (updateMedian m v)
    rfl
  · rw [hco]
    exact h2c.trans h1c

theorem runMedian_inv (xs : List ℚ) :
    medInv (xs.foldl updateMedian newMedData) ∧
    List.Perm (medContent (xs.foldl updateMedian newMedData)) xs := by
  induction xs using List.reverseRecOn with
  | nil =>
    refine ⟨⟨List.sorted_nil, List.sorted_nil, ?_, ?_, ?_, ?_⟩, List.Perm.refl _⟩
    · intro x hx; cases hx
    · simp [newMedData]
    · simp [newMedData]
    · simp [newMedData, medVal]
  | append_singleton zs w ih =>
    rw [List.foldl_append, List.foldl_cons, List.foldl_nil]
    obtain ⟨hinv, hperm⟩ := updateMedian_inv (zs.foldl updateMedian newMedData) w ih.1
    refine ⟨hinv, hperm.trans ?_⟩
    refine (ih.2.cons w).trans ?_
    exact (List.perm_append_singleton w zs).symm

theorem getD_reverse_head (D : List ℚ) (hne : D ≠ []) (d : ℚ) :
    D.reverse.getD (D.length - 1) d = D.headD d := by
  obtain ⟨u, us, rfl⟩ := List.exists_cons_of_ne_nil hne
  simp only [List.reverse_cons, List.headD_cons, List.length_cons, Nat.add_sub_cancel]
  rw [List.getD_append_right _ _ _ _ (by simp)]
  simp

theorem medInv_val_eq (m : medData) (xs : List ℚ) (hm : medInv m)
    (hc : List.Perm (medContent m) xs) (hne : xs ≠ []) :
    m.val = medianOfSorted xs := by
  obtain ⟨s, l, mval⟩ := m
  obtain ⟨hs, hl, hp, hsb, hlb, hv⟩ := hm
  simp only [medData.smaller, medData.larger, medData.val] at hs hl hp hsb hlb hv ⊢
  unfold medContent at hc
  simp only [medData.smaller, medData.larger] at hc
  -- A is the ascending list of the values at or below the median
  have hDsort : (s.map (fun x => -x)).Pairwise (fun a b => b ≤ a) := by
    rw [List.pairwise_map]
    exact hs.imp (fun h => by linarith)
  have hAsort : ((s.map (fun x => -x)).reverse : List ℚ).Sorted (· ≤ ·) := by
    exact List.pairwise_reverse.mpr hDsort
  have hcross : ∀ x ∈ (s.map (fun x => -x)).reverse, ∀ y ∈ l, x ≤ y := by
    intro x hx y hy
    rw [List.mem_reverse, List.mem_map] at hx
    obtain ⟨x', hx', rfl⟩ := hx
    exact hp x' hx' y hy
  have hABsort : ((s.map (fun x => -x)).reverse ++ l).Sorted (· ≤ ·) :=
    List.pairwise_append.mpr ⟨hAsort, hl, hcross⟩
  have hperm : List.Perm ((s.map (fun x => -x)).reverse ++ l) xs :=
    ((List.reverse_perm (s.map (fun x => -x))).append_right l).trans hc
  have hsorteq : List.insertionSort (· ≤ ·) xs = (s.map (fun x => -x)).reverse ++ l :=
    List.eq_of_perm_of_sorted ((List.perm_insertionSort (· ≤ ·) xs).trans hperm.symm)
      (List.sorted_insertionSort (· ≤ ·) xs) hABsort
  have hlenA : ((s.map (fun x => -x)).reverse : List ℚ).length = s.length := by simp
  have hlenxs : xs.length = s.length + l.length := by
    have hx := hperm.length_eq
    simp only [List.length_append, hlenA] at hx
    omega
  have hxs0 : xs.length ≠ 0 := fun hz => hne (List.length_eq_zero.mp hz)
  unfold medianOfSorted
  rw [hsorteq]
  rcases Nat.lt_trichotomy s.length l.length with hlt | heq | hgt
  · -- larger is longer by one: the median is larger's top
    have hll : l.length = s.length + 1 := by omega
    obtain ⟨t, ts, rfl⟩ := List.exists_cons_of_ne_nil
      (fun hz : l = [] => by rw [hz] at hll; simp at hll)
    have hll2 : ts.length = s.length := by
      simp only [List.length_cons] at hll
      omega
    have hodd : ((s.map (fun x => -x)).reverse ++ t :: ts).length % 2 = 1 := by
      simp only [List.length_append, hlenA, List.length_cons]
      omega
    rw [if_pos hodd]
    have hidx : ((s.map (fun x => -x)).reverse ++ t :: ts).length / 2 = s.length := by
      simp only [List.length_append, hlenA, List.length_cons]
      omega
    rw [hidx]
    rw [List.getD_append_right _ _ _ _ (by rw [hlenA])]
    rw [hlenA, Nat.sub_self]
    unfold medVal at hv
    simp only [medData.smaller, medData.larger] at hv
    rw [if_neg (show ¬ (s.length = (t :: ts).length) by
        simp only [List.length_cons]; omega),
      if_neg (show ¬ ((t :: ts).length < s.length) by
        simp only [List.length_cons]; omega)] at hv
    simpa using hv
  · -- equal sizes: the median averages the two tops
    have hs0 : s.length ≠ 0 := by
      intro hz
      rw [hz] at heq
      omega
    obtain ⟨u, us, rfl⟩ := List.exists_cons_of_ne_nil
      (fun hz : s = [] => by rw [hz] at hs0; simp at hs0)
    obtain ⟨t, ts, rfl⟩ := List.exists_cons_of_ne_nil
      (fun hz : l = [] => by rw [hz] at heq; simp at heq)
    have heq2 : us.length = ts.length := by
      simp only [List.length_cons] at heq
      omega
    have heven : ¬ (((((u :: us).map (fun x => -x)).reverse ++ t :: ts).length) % 2 = 1) := by
      simp only [List.length_append, hlenA, List.length_cons]
      omega
    rw [if_neg heven]
    have hidx : ((((u :: us).map (fun x => -x)).reverse ++ t :: ts).length) / 2 =
        (u :: us).length := by
      simp only [List.length_append, hlenA, List.length_cons]
      omega
    rw [hidx]
    have hgd1 : ((((u :: us).map (fun x => -x)).reverse ++ t :: ts)).getD
        ((u :: us).length - 1) 0 = -u := by
      rw [List.getD_append _ _ _ _ (by rw [hlenA]; simp only [List.length_cons]; omega)]
      have hx := getD_reverse_head ((u :: us).map (fun x => -x))
        (by simp) 0
      simp only [List.length_map] at hx
      rw [hx]
      simp
    have hgd2 : ((((u :: us).map (fun x => -x)).reverse ++ t :: ts)).getD
        ((u :: us).length) 0 = t := by
      rw [List.getD_append_right _ _ _ _ (by rw [hlenA])]
      rw [hlenA, Nat.sub_self]
      simp
    rw [hgd1, hgd2]
    unfold medVal at hv
    simp only [medData.smaller, medData.larger] at hv
    rw [if_pos heq] at hv
    simp only [List.headD_cons] at hv
    rw [hv]
    ring
  · -- smaller is longer by one: the median is smaller's (un-negated) top
    have hsl : s.length = l.length + 1 := by omega
    obtain ⟨u, us, rfl⟩ := List.exists_cons_of_ne_nil
      (fun hz : s = [] => by rw [hz] at hsl; simp at hsl)
    have hsl2 : us.length = l.length := by
      simp only [List.length_cons] at hsl
      omega
    have hodd : ((((u :: us).map (fun x => -x)).reverse ++ l).length) % 2 = 1 := by
      simp only [List.length_append, hlenA, List.length_cons]
      omega
    rw [if_pos hodd]
    have hidx : ((((u :: us).map (fun x => -x)).reverse ++ l).length) / 2 =
        (u :: us).length - 1 := by
      simp only [List.length_append, hlenA, List.length_cons]
      omega
    rw [hidx]
    have hgd1 : ((((u :: us).map (fun x => -x)).reverse ++ l)).getD
        ((u :: us).length - 1) 0 = -u := by
      rw [List.getD_append _ _ _ _ (by rw [hlenA]; simp only [List.length_cons]; omega)]
      have hx := getD_reverse_head ((u :: us).map (fun x => -x)) (by simp) 0
      simp only [List.length_map] at hx
      rw [hx]
      simp
    rw [hgd1]
    unfold medVal at hv
    simp only [medData.smaller, medData.larger] at hv
    rw [if_neg (show ¬ ((u :: us).length = l.length) by
        simp only [List.length_cons]; omega),
      if_pos (show l.length < (u :: us).length by
        simp only [List.length_cons]; omega)] at hv
    simpa using hv

/-- C1: feeding any permutation of a non-empty list through the incremental
two-heap updater yields the same final median: the middle element of the
sorted list for odd length, and `0.5 * (a + b)` for the two middle elements
`a`, `b` at even length. -/
theorem median_perm_correct (xs ys : List ℚ) (hperm : List.Perm ys xs) (hne : xs ≠ []) :
    median ys = medianOfSorted xs := by
  obtain ⟨hinv, hcontent⟩ := runMedian_inv ys
  exact medInv_val_eq _ xs hinv (hcontent.trans hperm) hne

theorem median_perm_correct_witness :
    median [3, 1, 2] = medianOfSorted [1, 2, 3] :=
  median_perm_correct [1, 2, 3] [3, 1, 2] (by decide) (by decide)

end Pst
